import Mathlib

/-!
# Verification of the JWST level-2 association merge / prune / diff engines

Shallow embedding of `jwst/associations/lib/rules_level2_base.py` and
`jwst/associations/lib/diff.py`.  Associations, products and members are
modelled structurally; the Python dict-based association record becomes the
`Asn` structure below.  Stateful Python code (in-place mutation of the merge
accumulator, `list.remove` during pruning) is modelled by explicit state
passing over immutable lists.
-/

namespace Jwst

/-- A member of a product: `{'expname': ..., 'exptype': ...}`
(`jwst.associations.lib.member.Member`; the optional `exposerr` flag plays no
role in the merge/prune/diff/nod logic verified here). -/
structure Member where
  expname : String
  exptype : String
deriving DecidableEq, Repr

/-- A product: a name plus an ordered member list. -/
structure Product where
  name : String
  members : List Member
deriving DecidableEq, Repr

/-- An association record.  `asn_type` and `asn_id` model the
`data['asn_type']` / `data['asn_id']` keys; `acid_type` models `self.acid.type`
(the candidate type carried by the ACID object, kept in sync with the id in the
repo); `products` models `data['products']`. -/
structure Asn where
  asn_type : String
  asn_id : String
  acid_type : String
  products : List Product
deriving DecidableEq, Repr

/-! ## Merge engine — `Utility._merge_asns` (rules_level2_base.py, 636-687) -/

/-- The grouping key `'_'.join([asn['asn_type'], asn['asn_id']])`. -/
def mergeKey (a : Asn) : String :=
  a.asn_type ++ "_" ++ a.asn_id

/-- The expnames of a product's members. -/
def memberNames (p : Product) : List String :=
  p.members.map Member.expname

/-- Folding one incoming product into a like-named accumulator product:
`member_names.difference(current_member_names)` filtered back through the
incoming member list, appended onto the current members (lines 662-678). -/
def extendMembers (current incoming : Product) : Product :=
  let member_names := memberNames incoming
  let current_member_names := memberNames current
  let new_names := member_names.filter (fun n => !(current_member_names.contains n))
  let new_members := incoming.members.filter (fun m => new_names.contains m.expname)
  { current with members := current.members ++ new_members }

/-- One iteration of the `for product in asn['products']` loop (lines 658-681):
every accumulator product with a matching name is extended; if no name
matches, the incoming product is appended. -/
def foldProductIn (current : Asn) (p : Product) : Asn :=
  if current.products.any (fun cp => cp.name == p.name) then
    { current with
      products := current.products.map
        (fun cp => if cp.name == p.name then extendMembers cp p else cp) }
  else
    { current with products := current.products ++ [p] }

/-- Association-list lookup for the `merged` dict (insertion-ordered). -/
def alistFind (k : String) : List (String × Asn) → Option Asn
  | [] => none
  | (k', v) :: rest => if k' == k then some v else alistFind k rest

/-- Association-list update for the `merged` dict. -/
def alistUpdate (k : String) (v : Asn) : List (String × Asn) → List (String × Asn)
  | [] => []
  | (k', v') :: rest =>
    if k' == k then (k', v) :: rest else (k', v') :: alistUpdate k v rest

/-- One iteration of the `for asn in asns` loop of `_merge_asns` (lines
651-681).  A fresh key seeds the accumulator with the association itself
(which then has its own products folded in, a no-op for a distinct-named
product list); an existing key folds the products into the stored
accumulator. -/
def mergeStep (merged : List (String × Asn)) (asn : Asn) : List (String × Asn) :=
  let idx := mergeKey asn
  match alistFind idx merged with
  | some current => alistUpdate idx (asn.products.foldl foldProductIn current) merged
  | none => merged ++ [(idx, asn.products.foldl foldProductIn asn)]

/-- `Utility._merge_asns`: fold all associations through the insertion-ordered
`merged` dict and return its values. -/
def mergeAsns (asns : List Asn) : List Asn :=
  (asns.foldl mergeStep []).map Prod.snd

/-- All member expnames appearing in a list of associations. -/
def asnExpnames (asns : List Asn) : List String :=
  asns.flatMap (fun a => a.products.flatMap memberNames)

/-! ## Product names and duplicates — `get_product_names` (diff.py, 299-326) -/

/-- `asn['products'][0]['name']`.  Python raises `IndexError` on an empty
product list; the claims only involve associations with at least one
product. -/
def firstProductName (a : Asn) : String :=
  match a.products with
  | [] => ""
  | p :: _ => p.name

def productNames (asns : List Asn) : List String :=
  asns.map firstProductName

/-- The duplicated product names.  Python dedupes them through `Counter`, but
only emptiness and membership of the resulting list are ever used, and both
agree with this multiplicity-keeping form. -/
def dupNames (asns : List Asn) : List String :=
  (productNames asns).filter (fun n => 1 < (productNames asns).count n)

/-! ## Prune engine — `Utility.prune_duplicate_products` (rules_level2_base.py,
531-566) and `Utility.sort_by_candidate` (612-634) -/

/-- `sorted(asns, key=lambda asn: asn['asn_id'])`: stable sort by the
candidate id string, which realises the priority `aXXX < cXXXX < oXXX`. -/
def sort_by_candidate (asns : List Asn) : List Asn :=
  asns.mergeSort (fun x y => decide (x.asn_id ≤ y.asn_id))

/-- `defaultdict(list)` append: add `a` under key `n`, creating the key at the
end on first use. -/
def addToGroups (gs : List (String × List Asn)) (n : String) (a : Asn) :
    List (String × List Asn) :=
  match gs with
  | [] => [(n, [a])]
  | (k, l) :: rest =>
    if k == n then (k, l ++ [a]) :: rest else (k, l) :: addToGroups rest n a

/-- The `to_prune` grouping loop (lines 555-559): associations whose first
product name is duplicated, grouped by that name in first-occurrence order. -/
def toPrune (asns : List Asn) : List (String × List Asn) :=
  asns.foldl
    (fun gs a =>
      if (dupNames asns).contains (firstProductName a) then
        addToGroups gs (firstProductName a) a
      else gs)
    []

/-- `Utility.prune_duplicate_products` (lines 531-566).  Python's
`pruned.remove(asn)` removes the first list element comparing equal to `asn`;
association equality (`__eq__`, lines 142-149) goes through `member_ids` from
a base mixin that is not under src/, so removal is modelled structurally
(`List.erase`), following the spec's description of prune: of the
associations carrying a duplicated product name, the one sorted first is
retained and the identified others are discarded. -/
def prune_duplicate_products (asns : List Asn) : List Asn :=
  if dupNames asns = [] then asns
  else
    (toPrune asns).foldl
      (fun pruned g => ((sort_by_candidate g.2).drop 1).foldl List.erase pruned)
      asns

/-! ## Diff engine — diff.py -/

/-- The distinct failures surfaced by the diff engine's `AssertionError`s,
carrying the same diagnostic data as the Python messages. -/
inductive DiffError where
  | leftDupProducts (dups : List String)
  | rightDupProducts (dups : List String)
  | productNameSetDiff (names : List String)
  | typeMismatch (l r : String)
  | candidateLevelMismatch (l r : Option Char)
  | productCountMismatch (l r : Nat)
  | memberCountMismatch (l r : Nat)
  | roleMismatch (lexp ltyp rexp rtyp : String)
  | noCounterpart (exp typ : String)
  | rightMemberLeftover (n : Nat) (exp typ : String)
  | leftProductLeftover
  | rightProductLeftover (n : Nat)
  | missingProduct (n : String)
deriving DecidableEq, Repr

/-- Splitting a character list at every separator, keeping empty fields,
exactly as `re.split` does. -/
def splitSep (p : Char → Bool) : List Char → List (List Char)
  | [] => [[]]
  | c :: rest =>
    if p c then [] :: splitSep p rest
    else
      match splitSep p rest with
      | [] => [[c]]
      | g :: gs => (c :: g) :: gs

/-- `components` (diff.py, 273-275): `set(re.split('[_-]', s))`. -/
def components (s : String) : Finset String :=
  ((splitSep (fun c => c == '_' || c == '-') s.toList).map String.mk).toFinset

/-- The inner `for right_member in members_right` loop of `compare_membership`
(diff.py, 227-245): find the first unconsumed right member with the left
member's expname, assert equal role, and remove it; no counterpart is a
failure. -/
def consumeMember (lm : Member) : List Member → Except DiffError (List Member)
  | [] => .error (.noCounterpart lm.expname lm.exptype)
  | r :: rest =>
    if lm.expname == r.expname then
      if lm.exptype == r.exptype then .ok rest
      else .error (.roleMismatch lm.expname lm.exptype r.expname r.exptype)
    else
      match consumeMember lm rest with
      | .ok rest' => .ok (r :: rest')
      | .error e => .error e

/-- The `for left_member in left_product['members']` loop: thread the
shrinking right-member list through `consumeMember`. -/
def matchMembers : List Member → List Member → Except DiffError (List Member)
  | [], rights => .ok rights
  | l :: ls, rights =>
    match consumeMember l rights with
    | .ok rights' => matchMembers ls rights'
    | .error e => .error e

/-- The `for right_idx, right_product in enumerate(products_right)` search
(diff.py, 213-262): first right product whose tokenised name matches; none
left is the `'Left has ... left over'` failure. -/
def findMatchingProduct (lp : Product) :
    List Product → Except DiffError (Product × List Product)
  | [] => .error .leftProductLeftover
  | rp :: rest =>
    if components rp.name = components lp.name then .ok (rp, rest)
    else
      match findMatchingProduct lp rest with
      | .ok (m, rest') => .ok (m, rp :: rest')
      | .error e => .error e

/-- The outer product loop of `compare_membership` (diff.py, 211-268):
pair each left product with a token-matching right product, compare member
counts, match members bijectively, and require no right leftovers. -/
def compareProducts : List Product → List Product → Except DiffError Unit
  | [], rights =>
    if rights.isEmpty then .ok () else .error (.rightProductLeftover rights.length)
  | lp :: lps, rights =>
    match findMatchingProduct lp rights with
    | .error e => .error e
    | .ok (rp, rest) =>
      if rp.members.length ≠ lp.members.length then
        .error (.memberCountMismatch lp.members.length rp.members.length)
      else
        match matchMembers lp.members rp.members with
        | .error e => .error e
        | .ok [] => compareProducts lps rest
        | .ok (m :: rem) => .error (.rightMemberLeftover (m :: rem).length m.expname m.exptype)

/-- `compare_membership` (diff.py, 187-270). -/
def compare_membership (left right : Asn) : Except DiffError Unit :=
  if left.products.length ≠ right.products.length then
    .error (.productCountMismatch left.products.length right.products.length)
  else compareProducts left.products right.products

/-- `_compare_asns` (diff.py, 139-184); `compare_asns` only re-wraps the
failure message.  `left['asn_id'][0]` would raise on an empty id string; the
leading character is modelled as `toList.head?`, an equality check either
way. -/
def compare_asns (left right : Asn) : Except DiffError Unit :=
  if left.asn_type ≠ right.asn_type then
    .error (.typeMismatch left.asn_type right.asn_type)
  else if left.asn_id.toList.head? ≠ right.asn_id.toList.head? then
    .error (.candidateLevelMismatch left.asn_id.toList.head? right.asn_id.toList.head?)
  else compare_membership left right

/-- The `for product_name in left_product_names` loop of `compare_asn_lists`
(diff.py, 98-99): the per-name association is looked up on each side (the
dict-by-name lookup is a `find?`, the names being duplicate-free at this
point) and the pair compared.  `missingProduct` is unreachable once the two
name sets agree. -/
def comparePairs (lefts rights : List Asn) : List String → Except DiffError Unit
  | [] => .ok ()
  | n :: ns =>
    match lefts.find? (fun a => firstProductName a == n),
          rights.find? (fun a => firstProductName a == n) with
    | some la, some ra =>
      match compare_asns la ra with
      | .ok _ => comparePairs lefts rights ns
      | .error e => .error e
    | _, _ => .error (.missingProduct n)

/-- `compare_asn_lists` (diff.py, 54-99): duplicate-name checks on both
sides, product-name set comparison, then the per-name association
comparisons. -/
def compare_asn_lists (lefts rights : List Asn) : Except DiffError Unit :=
  if dupNames lefts ≠ [] then .error (.leftDupProducts (dupNames lefts))
  else if dupNames rights ≠ [] then .error (.rightDupProducts (dupNames rights))
  else
    let lnames := productNames lefts
    let rnames := productNames rights
    let sdiff := lnames.filter (fun n => !(rnames.contains n)) ++
                 rnames.filter (fun n => !(lnames.contains n))
    if sdiff ≠ [] then .error (.productNameSetDiff sdiff)
    else comparePairs lefts rights lnames

/-- The sequence of role tags of the members carrying a given exposure name,
in member-list order; `compare_membership` succeeds exactly when these agree
on both sides for every exposure name. -/
def roleSeq (ms : List Member) (x : String) : List String :=
  (ms.filter (fun m => m.expname == x)).map Member.exptype

/-! ## Validity, nod splitting, bulk add, renaming (rules_level2_base.py) -/

/-- `os.path.split(p)[1]`: the basename after the last `/`. -/
def pathTail (s : String) : String :=
  String.mk ((s.toList.reverse.takeWhile (fun c => !(c == '/'))).reverse)

/-- `os.path.splitext` on a separator-free name: split at the last dot
provided some earlier character of the name is not a dot. -/
def splitextBase (s : String) : String × String :=
  let cs := s.toList
  match ((List.range cs.length).filter (fun i => cs.getD i ' ' == '.')).getLast? with
  | none => (s, "")
  | some i =>
    if (cs.take i).any (fun c => !(c == '.')) then
      (String.mk (cs.take i), String.mk (cs.drop i))
    else (s, "")

/-- Modelled from the spec: `jwst.lib.suffix.remove_suffix` is not under
src/.  Spec §4.2 describes product naming as the "basename without extension,
suffix stripped", the suffixes being the known uncalibrated/calibrated
level-2 suffixes named by the spec and src (`uncal`, `rate`, `rateints`,
`cal`).  One trailing `_<suffix>` is stripped; the separator is returned like
the original's second component. -/
def remove_suffix (s : String) : String × String :=
  match ["uncal", "rate", "rateints", "cal"].find?
      (fun suf => ("_" ++ suf).toList.isSuffixOf s.toList) with
  | some suf => (String.mk (s.toList.take (s.toList.length - (suf.length + 1))), "_")
  | none => (s, "")

/-- `DMSLevel2bBase.dms_product_name` (lines 158-171) for a product whose
designated science member has expname `e`: strip the extension, then the
suffix. -/
def dms_product_name_of (e : String) : String :=
  (remove_suffix (splitextBase e).1).1

/-- Python's `str.lower()` for the ASCII role and candidate-type strings
compared by `members_by_type` and `validate_candidates`.  (Implemented as a
character map so that it evaluates inside the kernel, unlike
`String.toLower`'s byte-position recursion.) -/
def pyLower (s : String) : String :=
  String.mk (s.toList.map Char.toLower)

/-- `current_product`: the last product of the association. -/
def currentMembers (a : Asn) : List Member :=
  match a.products.getLast? with
  | some p => p.members
  | none => []

/-- `members_by_type` (lines 116-130): case-insensitive role filter over the
current product's members. -/
def members_by_type (a : Asn) (t : String) : List Member :=
  (currentMembers a).filter (fun m => pyLower t == pyLower m.exptype)

/-- `has_science` (lines 132-140). -/
def has_science (a : Asn) : Bool :=
  decide (1 ≤ (members_by_type a "science").length)

/-- `validate_candidates` (lines 331-360): observation candidates always
pass; background candidates need a background member; anything else fails. -/
def validate_candidates (a : Asn) : Bool :=
  if pyLower a.acid_type == "observation" then true
  else if pyLower a.acid_type == "background" then
    (currentMembers a).any (fun m => pyLower m.exptype == "background")
  else false

/-- Modelled from the spec: `Association.is_valid` lives in the base
`Association` class, which is not under src/.  Spec §4.2: "Validity
predicate: `hasScience` (≥1 science member) AND `allowedCandidates`
(observation type always passes; background type passes only if ≥1 current
member has background role)" — the two checks installed by
`DMSLevel2bBase.__init__` (lines 92-101), whose bodies (`has_science`,
`validate_candidates`) are in src. -/
def is_valid (a : Asn) : Bool :=
  has_science a && validate_candidates a

/-- `DMSLevel2bBase.make_nod_asns` (lines 362-423).  The Python loop over
`self['products']` returns inside its first iteration, so only the first
product is ever processed (with no products the method falls through,
returning `None`, modelled as `[]`).  Each science member yields a deep copy
of the association with a single fresh product: the chosen member, the other
science members relabeled `background`, and every non-science member; only
copies passing the validity predicate are kept. -/
def make_nod_asns (a : Asn) : List Asn :=
  match a.products with
  | [] => []
  | product :: _ =>
    let members := product.members
    let science_exps := members.filter (fun m => m.exptype == "science")
    let nonscience_exps := members.filter (fun m => !(m.exptype == "science"))
    (science_exps.map (fun science_exp =>
      let product_name := (remove_suffix (splitextBase (pathTail science_exp.expname)).1).1
      let new_members :=
        (science_exp ::
          (science_exps.filter (fun o => !(o.expname == science_exp.expname))).map
            (fun o => { o with exptype := "background" })) ++ nonscience_exps
      { a with products := [⟨product_name, new_members⟩] })).filter is_valid

/-- Python's `str.startswith`, on the character list (`String.startsWith`
itself does not evaluate inside the kernel). -/
def startswith (s pre : String) : Bool :=
  pre.toList.isPrefixOf s.toList

/-- `DMSLevel2bBase._add_items` (lines 239-324) as a pure function: the
association mutated in place becomes an explicit input/output and the raised
`ValueError` an `Except.error`.  A `product_name_func` that raises is
modelled as returning `Except.error`; per-product default names come from
`update_asn` → `dms_product_name` (lines 326-329 and 158-171), and
`self._acid = ACID((acid, ac_type))` sets the id and candidate type. -/
def add_items (a : Asn) (items : List String) (acid : String)
    (product_name_func : Option (String → Nat → Except Unit String)) :
    Except String Asn :=
  if startswith acid "o" ∨ startswith acid "c" then
    let ac_type := if startswith acid "o" then "observation" else "background"
    let newProducts := (List.enumFrom 1 items).map (fun p =>
      let defaultName := dms_product_name_of p.2
      let name :=
        match product_name_func with
        | none => defaultName
        | some f =>
          match f p.2 p.1 with
          | .ok n => n
          | .error _ => defaultName
      (⟨name, [⟨p.2, "science"⟩]⟩ : Product))
    .ok { a with asn_id := acid, acid_type := ac_type, products := a.products ++ newProducts }
  else
    .error ("Invalid association id specified: " ++ acid)

/-- Valid split positions of `re.match` for
`_LEVEL1B_REGEX = (?P<path>.+)(?P<type>_uncal)(?P<extension>\..+)` (line 71):
a nonempty newline-free `path` of length `i`, the literal `_uncal`, then a
dot followed by at least one non-newline character (`.` does not match a
newline). -/
def level1bValid (cs : List Char) (i : Nat) : Bool :=
  decide (1 ≤ i) &&
  decide (i + 7 < cs.length) &&
  (cs.take i).all (fun c => !(c == '\n')) &&
  ((cs.drop i).take 6 == "_uncal".toList) &&
  (cs.getD (i + 6) ' ' == '.') &&
  !(cs.getD (i + 7) ' ' == '\n')

/-- The greedy `path` group takes the longest valid split; the greedy
extension group then runs to the end of the non-newline run (the match need
not span the whole string). -/
def level1bMatch (cs : List Char) : Option (List Char × List Char) :=
  match ((List.range (cs.length + 1)).filter (level1bValid cs)).getLast? with
  | none => none
  | some i =>
    some (cs.take i, '.' :: ((cs.drop (i + 7)).takeWhile (fun c => !(c == '\n'))))

/-- `Utility.rename_to_level2a` (lines 569-606): on a regex match, rebuild
`path + '_' + suffix + extension`; otherwise log and return the name
unchanged (the `match.group('type') != '_uncal'` arm is unreachable, that
named group being the literal `_uncal`). -/
def rename_to_level2a (level1b_name : String) (use_integrations : Bool) : String :=
  match level1bMatch level1b_name.toList with
  | none => level1b_name
  | some (path, ext) =>
    let suffix := if use_integrations then "rateints" else "rate"
    String.mk path ++ "_" ++ suffix ++ String.mk ext

/-! ### Merge lemmas -/

/-- Folding a product into itself extends nothing: the name difference of a
member list with itself is empty. -/
lemma extendMembers_self (p : Product) : extendMembers p p = p := by
  unfold extendMembers
  have h1 : (memberNames p).filter (fun n => !((memberNames p).contains n)) = [] := by
    simp [List.filter_eq_nil_iff]
  simp [h1]

/-- The members appended by `extendMembers` are exactly the incoming members
whose expname is not already present in the accumulator product. -/
lemma extendMembers_eq (c i : Product) :
    extendMembers c i =
      { c with
        members := c.members ++
          i.members.filter (fun m => !((memberNames c).contains m.expname)) } := by
  simp only [extendMembers]
  have hfilter :
      i.members.filter
        (fun m => (((memberNames i).filter
          (fun n => !((memberNames c).contains n))).contains m.expname))
      = i.members.filter (fun m => !((memberNames c).contains m.expname)) := by
    apply List.filter_congr
    intro m hm
    have hmem : m.expname ∈ memberNames i := List.mem_map_of_mem Member.expname hm
    by_cases hc : m.expname ∈ memberNames c
    · simp [hc]
    · simp [hc, hmem]
  rw [hfilter]

/-- Seeding the merge accumulator with a single-product association and
folding its own products back in is the identity. -/
lemma selfFold_single (a : Asn) (p : Product) (hp : a.products = [p]) :
    a.products.foldl foldProductIn a = a := by
  rw [hp]
  show foldProductIn a p = a
  unfold foldProductIn
  rw [hp]
  simp [extendMembers_self]
  cases a with
  | mk t i c ps => simpa using hp.symm

/-- `alistFind` over an appended association list. -/
lemma alistFind_append (k : String) (l r : List (String × Asn)) :
    alistFind k (l ++ r) =
      match alistFind k l with
      | some v => some v
      | none => alistFind k r := by
  induction l with
  | nil => simp [alistFind]
  | cons hd tl ih =>
    by_cases h : hd.1 == k
    · simp [alistFind, h]
    · simp only [List.cons_append, alistFind, h]
      rw [if_neg (by simp_all), if_neg (by simp_all)]
      exact ih

/-- Folding single-product associations with pairwise-distinct keys through
the merge accumulator appends one untouched entry per association. -/
lemma foldl_mergeStep_fresh (asns : List Asn) (acc : List (String × Asn))
    (hsp : ∀ a ∈ asns, ∃ p, a.products = [p])
    (hnd : (asns.map mergeKey).Nodup)
    (hfresh : ∀ a ∈ asns, alistFind (mergeKey a) acc = none) :
    asns.foldl mergeStep acc = acc ++ asns.map (fun a => (mergeKey a, a)) := by
  induction asns generalizing acc with
  | nil => simp
  | cons a rest ih =>
    obtain ⟨p, hp⟩ := hsp a (List.mem_cons_self a rest)
    have hfind := hfresh a (List.mem_cons_self a rest)
    have hstep : mergeStep acc a = acc ++ [(mergeKey a, a)] := by
      simp only [mergeStep]
      rw [hfind, selfFold_single a p hp]
    rw [List.foldl_cons, hstep,
      ih (acc ++ [(mergeKey a, a)])
        (fun b hb => hsp b (List.mem_cons_of_mem a hb))
        (by
          simp only [List.map_cons, List.nodup_cons] at hnd
          exact hnd.2)
        (fun b hb => by
          rw [alistFind_append, hfresh b (List.mem_cons_of_mem a hb)]
          have hne : mergeKey a ≠ mergeKey b := by
            simp only [List.map_cons, List.nodup_cons] at hnd
            intro h
            exact hnd.1 (h ▸ List.mem_map_of_mem mergeKey hb)
          simp [alistFind, beq_eq_false_iff_ne.mpr hne])]
    simp

/-- Expname membership in the merged pair, in either fold order. -/
lemma merge_pair_names (a b : Asn) (pa pb : Product)
    (ha : a.products = [pa]) (hb : b.products = [pb])
    (htype : a.asn_type = b.asn_type) (hid : a.asn_id = b.asn_id)
    (hname : pa.name = pb.name) :
    mergeAsns [a, b] =
      [{ a with products := [extendMembers pa pb] }] := by
  have hkey : mergeKey b = mergeKey a := by
    unfold mergeKey
    rw [htype, hid]
  unfold mergeAsns
  have h1 : mergeStep [] a = [(mergeKey a, a)] := by
    simp only [mergeStep]
    rw [show alistFind (mergeKey a) [] = none from rfl, selfFold_single a pa ha]
    rfl
  have hfold : b.products.foldl foldProductIn a =
      { a with products := [extendMembers pa pb] } := by
    rw [hb]
    show foldProductIn a pb = _
    unfold foldProductIn
    rw [ha]
    simp [hname]
  have h2 : mergeStep [(mergeKey a, a)] b =
      [(mergeKey a, { a with products := [extendMembers pa pb] })] := by
    simp only [mergeStep]
    rw [hkey]
    have hfind : alistFind (mergeKey a) [(mergeKey a, a)] = some a := by
      simp [alistFind]
    rw [hfind]
    show alistUpdate (mergeKey a) (List.foldl foldProductIn a b.products) [(mergeKey a, a)] = _
    rw [hfold]
    simp [alistUpdate]
  rw [show [a, b].foldl mergeStep [] = mergeStep (mergeStep [] a) b from rfl, h1, h2]
  simp

/-- Expnames of an extended product are the union of the two products'
expnames. -/
lemma mem_extend_names (p q : Product) (n : String) :
    n ∈ memberNames (extendMembers p q) ↔ n ∈ memberNames p ∨ n ∈ memberNames q := by
  rw [extendMembers_eq]
  constructor
  · intro h
    simp only [memberNames, List.map_append, List.mem_append] at h
    rcases h with h | h
    · exact Or.inl h
    · rw [List.mem_map] at h
      obtain ⟨m, hm, rfl⟩ := h
      rw [List.mem_filter] at hm
      exact Or.inr (List.mem_map_of_mem _ hm.1)
  · intro h
    simp only [memberNames, List.map_append, List.mem_append]
    rcases h with h | h
    · exact Or.inl h
    · by_cases hp : n ∈ memberNames p
      · exact Or.inl hp
      · right
        rw [show memberNames q = q.members.map Member.expname from rfl, List.mem_map] at h
        obtain ⟨m, hm, rfl⟩ := h
        rw [List.mem_map]
        exact ⟨m, List.mem_filter.mpr ⟨hm, by simpa [memberNames] using hp⟩, rfl⟩

/-- Expname membership in a merged singleton output. -/
lemma asnExpnames_merged (x : Asn) (p q : Product) (n : String) :
    n ∈ asnExpnames [{ x with products := [extendMembers p q] }] ↔
      n ∈ memberNames p ∨ n ∈ memberNames q := by
  simp [asnExpnames, mem_extend_names]

end Jwst

namespace Jwst

/-! ## C1 — merging two like-keyed, like-named-product associations -/

/-- **C1.**  Merging two associations that share the same `(asn_type,
asn_id)` key and whose single products share a name produces a single
association; its product's members are the accumulator's members followed by
exactly those incoming members whose expname is not already present (exact
expname duplicates are silently dropped); an expname belongs to the result
iff it belongs to either input product, so the member set keyed by exposure
name is the union of both inputs and is the same whichever association is
folded into the accumulator first. -/
theorem merge_shared_product_union (a b : Asn) (pa pb : Product)
    (ha : a.products = [pa]) (hb : b.products = [pb])
    (htype : a.asn_type = b.asn_type) (hid : a.asn_id = b.asn_id)
    (hname : pa.name = pb.name) :
    (mergeAsns [a, b]).length = 1 ∧
    mergeAsns [a, b] =
      [{ a with products := [{ pa with members := (pa.members ++
          pb.members.filter (fun m => !((memberNames pa).contains m.expname))) }] }] ∧
    (∀ n, n ∈ asnExpnames (mergeAsns [a, b]) ↔
      n ∈ memberNames pa ∨ n ∈ memberNames pb) ∧
    (∀ n, n ∈ asnExpnames (mergeAsns [a, b]) ↔ n ∈ asnExpnames (mergeAsns [b, a])) := by
  have hAB := merge_pair_names a b pa pb ha hb htype hid hname
  have hBA := merge_pair_names b a pb pa hb ha htype.symm hid.symm hname.symm
  refine ⟨by rw [hAB]; rfl, by rw [hAB, extendMembers_eq], ?_, ?_⟩
  · intro n
    rw [hAB]
    exact asnExpnames_merged a pa pb n
  · intro n
    rw [hAB, hBA, asnExpnames_merged, asnExpnames_merged]
    exact or_comm

/-- Witness for C1 at a concrete pair: products `p{x,y}` and `p{y,z}` under
the same `(spec2, o001)` key merge into a single association. -/
theorem merge_shared_product_union_witness :
    (mergeAsns
      [⟨"spec2", "o001", "observation", [⟨"p", [⟨"x", "science"⟩, ⟨"y", "science"⟩]⟩]⟩,
       ⟨"spec2", "o001", "observation",
        [⟨"p", [⟨"y", "science"⟩, ⟨"z", "science"⟩]⟩]⟩]).length = 1 :=
  (merge_shared_product_union
    ⟨"spec2", "o001", "observation", [⟨"p", [⟨"x", "science"⟩, ⟨"y", "science"⟩]⟩]⟩
    ⟨"spec2", "o001", "observation", [⟨"p", [⟨"y", "science"⟩, ⟨"z", "science"⟩]⟩]⟩
    ⟨"p", [⟨"x", "science"⟩, ⟨"y", "science"⟩]⟩
    ⟨"p", [⟨"y", "science"⟩, ⟨"z", "science"⟩]⟩
    rfl rfl rfl rfl rfl).1

/-! ## C2 — merge as a no-op -/

/-- **C2 (counterexample).**  Two single-product associations with the same
`(asn_type, asn_id)` key and no shared exposure name — so no exposure name
occurs in more than one association of the key, the claim's hypothesis — are
nevertheless collapsed into one association by the merge: the output is not
the input, and neither input association appears in the output. -/
theorem merge_same_key_not_noop :
    mergeKey (⟨"image2", "o001", "observation", [⟨"p1", [⟨"x", "science"⟩]⟩]⟩ : Asn) =
      mergeKey (⟨"image2", "o001", "observation", [⟨"p2", [⟨"y", "science"⟩]⟩]⟩ : Asn) ∧
    (asnExpnames [⟨"image2", "o001", "observation", [⟨"p1", [⟨"x", "science"⟩]⟩]⟩]).all
      (fun n => !((asnExpnames
        [⟨"image2", "o001", "observation", [⟨"p2", [⟨"y", "science"⟩]⟩]⟩]).contains n))
      = true ∧
    mergeAsns
      [⟨"image2", "o001", "observation", [⟨"p1", [⟨"x", "science"⟩]⟩]⟩,
       ⟨"image2", "o001", "observation", [⟨"p2", [⟨"y", "science"⟩]⟩]⟩] ≠
      [⟨"image2", "o001", "observation", [⟨"p1", [⟨"x", "science"⟩]⟩]⟩,
       ⟨"image2", "o001", "observation", [⟨"p2", [⟨"y", "science"⟩]⟩]⟩] ∧
    (⟨"image2", "o001", "observation", [⟨"p1", [⟨"x", "science"⟩]⟩]⟩ : Asn) ∉
      mergeAsns
        [⟨"image2", "o001", "observation", [⟨"p1", [⟨"x", "science"⟩]⟩]⟩,
         ⟨"image2", "o001", "observation", [⟨"p2", [⟨"y", "science"⟩]⟩]⟩] ∧
    (⟨"image2", "o001", "observation", [⟨"p2", [⟨"y", "science"⟩]⟩]⟩ : Asn) ∉
      mergeAsns
        [⟨"image2", "o001", "observation", [⟨"p1", [⟨"x", "science"⟩]⟩]⟩,
         ⟨"image2", "o001", "observation", [⟨"p2", [⟨"y", "science"⟩]⟩]⟩] := by
  refine ⟨rfl, by decide, by decide, by decide, by decide⟩

/-- **C2 (amended).**  Merging is a no-op exactly on the lists the merge
never folds: for every list of single-product associations whose
`(asn_type, asn_id)` keys are pairwise distinct, the output equals the
input.  (Same-key associations are always collapsed into one association per
key, even when their exposure names are disjoint.) -/
theorem merge_distinct_keys_noop (asns : List Asn)
    (hsp : ∀ a ∈ asns, ∃ p, a.products = [p])
    (hnd : (asns.map mergeKey).Nodup) :
    mergeAsns asns = asns := by
  unfold mergeAsns
  rw [foldl_mergeStep_fresh asns [] hsp hnd (fun a _ => rfl)]
  simp [Function.comp_def]

/-- Witness for the amended C2: two associations of distinct candidate ids
pass through the merge untouched. -/
theorem merge_distinct_keys_noop_witness :
    mergeAsns
      [⟨"image2", "o001", "observation", [⟨"p1", [⟨"x", "science"⟩]⟩]⟩,
       ⟨"image2", "o002", "observation", [⟨"p2", [⟨"y", "science"⟩]⟩]⟩] =
      [⟨"image2", "o001", "observation", [⟨"p1", [⟨"x", "science"⟩]⟩]⟩,
       ⟨"image2", "o002", "observation", [⟨"p2", [⟨"y", "science"⟩]⟩]⟩] :=
  merge_distinct_keys_noop _
    (by
      intro a ha
      simp only [List.mem_cons, List.not_mem_nil, or_false] at ha
      rcases ha with rfl | rfl
      · exact ⟨_, rfl⟩
      · exact ⟨_, rfl⟩)
    (by decide)

end Jwst

namespace Jwst

/-! ## C10 — renaming only rewrites `_uncal` names -/

/-- A successful `_LEVEL1B_REGEX` match exhibits the `<path>_uncal<extension>`
decomposition: a nonempty path, the literal `_uncal`, and an extension made
of a dot plus at least one character. -/
lemma level1bMatch_some_shape (cs : List Char) (pr : List Char × List Char)
    (hm : level1bMatch cs = some pr) :
    ∃ p e : List Char, cs = p ++ ("_uncal".toList ++ ('.' :: e)) ∧ p ≠ [] ∧ e ≠ [] := by
  unfold level1bMatch at hm
  cases hg : ((List.range (cs.length + 1)).filter (level1bValid cs)).getLast? with
  | none => rw [hg] at hm; exact absurd hm (by simp)
  | some i =>
    have hi : i ∈ (List.range (cs.length + 1)).filter (level1bValid cs) :=
      List.mem_of_mem_getLast? hg
    have hvalid : level1bValid cs i = true := (List.mem_filter.mp hi).2
    simp only [level1bValid, Bool.and_eq_true, decide_eq_true_eq, beq_iff_eq,
      Bool.not_eq_true'] at hvalid
    obtain ⟨⟨⟨⟨⟨h1, hlen⟩, _⟩, h6⟩, hdot⟩, _⟩ := hvalid
    refine ⟨cs.take i, cs.drop (i + 7), ?_, ?_, ?_⟩
    · conv_lhs => rw [← List.take_append_drop i cs]
      congr 1
      conv_lhs => rw [← List.take_append_drop 6 (cs.drop i)]
      rw [h6, List.drop_drop]
      congr 1
      rw [List.drop_eq_getElem_cons (show i + 6 < cs.length by omega)]
      congr 1
      rw [← List.getD_eq_getElem cs ' ' (show i + 6 < cs.length by omega)]
      exact hdot
    · apply List.ne_nil_of_length_pos
      rw [List.length_take]
      omega
    · apply List.ne_nil_of_length_pos
      rw [List.length_drop]
      omega

/-- **C10.**  For every input filename that does not decompose as
`<path>_uncal<extension>` — a nonempty path, the `_uncal` suffix, then an
extension consisting of a dot and at least one character —
`rename_to_level2a` returns the input unchanged, for both values of
`use_integrations`; the `_rate`/`_rateints` rewrite therefore only ever fires
on names containing the `_uncal` suffix followed by an extension. -/
theorem rename_unchanged_without_uncal (name : String) (use_integrations : Bool)
    (h : ¬ ∃ p e : List Char,
      name.toList = p ++ ("_uncal".toList ++ ('.' :: e)) ∧ p ≠ [] ∧ e ≠ []) :
    rename_to_level2a name use_integrations = name := by
  unfold rename_to_level2a
  cases hm : level1bMatch name.toList with
  | none => rfl
  | some pr => exact absurd (level1bMatch_some_shape name.toList pr hm) h

/-- Witness for C10: `abc.fits` (no `_uncal`) is returned unchanged under
both `use_integrations` settings. -/
theorem rename_unchanged_without_uncal_witness :
    rename_to_level2a "abc.fits" false = "abc.fits" ∧
    rename_to_level2a "abc.fits" true = "abc.fits" := by
  have hno : ¬ ∃ p e : List Char,
      "abc.fits".toList = p ++ ("_uncal".toList ++ ('.' :: e)) ∧ p ≠ [] ∧ e ≠ [] := by
    rintro ⟨p, e, hsplit, hp, he⟩
    have hlen := congrArg List.length hsplit
    have hp1 : 1 ≤ p.length := List.length_pos.mpr hp
    have he1 : 1 ≤ e.length := List.length_pos.mpr he
    have h8 : ("abc.fits".toList).length = 8 := rfl
    have h6 : ("_uncal".toList).length = 6 := rfl
    simp only [List.length_append, List.length_cons, h8, h6] at hlen
    omega
  exact ⟨rename_unchanged_without_uncal _ false hno,
         rename_unchanged_without_uncal _ true hno⟩

end Jwst

namespace Jwst

/-! ## C8 — nod splitting -/

/-- `currentMembers` of a single-product association. -/
lemma currentMembers_single (x : Asn) (p : Product) (hx : x.products = [p]) :
    currentMembers x = p.members := by
  unfold currentMembers
  rw [hx]
  rfl

/-- An association whose current product holds a science member has
science. -/
lemma has_science_of_mem (x : Asn) (s : Member) (hs : s.exptype = "science")
    (hmem : s ∈ currentMembers x) : has_science x = true := by
  unfold has_science
  rw [decide_eq_true_eq]
  have hsm : s ∈ members_by_type x "science" := by
    unfold members_by_type
    refine List.mem_filter.mpr ⟨hmem, ?_⟩
    rw [hs]
    exact beq_self_eq_true _
  exact List.length_pos.mpr (List.ne_nil_of_mem hsm)

/-- An observation or background candidate with a background member among
the current members passes `validate_candidates`. -/
lemma validate_candidates_split (x : Asn) (b : Member)
    (hb : b.exptype = "background") (hmem : b ∈ currentMembers x)
    (hcand : x.acid_type = "observation" ∨ x.acid_type = "background") :
    validate_candidates x = true := by
  unfold validate_candidates
  rcases hcand with h | h <;> rw [h]
  · rfl
  · have h1 : (pyLower "background" == "observation") = false := rfl
    simp only [h1, Bool.false_eq_true, if_false]
    have h2 : (pyLower "background" == "background") = true := rfl
    simp only [h2, if_true]
    rw [List.any_eq_true]
    refine ⟨b, hmem, ?_⟩
    rw [hb]
    exact h2

/-- Validity of a nod split: one science member, one background member, and
an observation/background candidate. -/
lemma is_valid_split (x : Asn) (nm : String) (s b2 b3 n : Member)
    (hx : x.products = [⟨nm, [s, b2, b3, n]⟩])
    (hs : s.exptype = "science") (hb2 : b2.exptype = "background")
    (hcand : x.acid_type = "observation" ∨ x.acid_type = "background") :
    is_valid x = true := by
  have hcm := currentMembers_single x _ hx
  unfold is_valid
  rw [has_science_of_mem x s hs (by rw [hcm]; exact List.mem_cons_self s _),
    validate_candidates_split x b2 hb2 (by rw [hcm]; simp) hcand]
  rfl

end Jwst

namespace Jwst

/-- **C8.**  For a single-product association holding three science members
with distinct exposure names plus one non-science member, and whose candidate
type makes every split valid (observation or background — with three
sciences each split carries both a science and two background members),
`make_nod_asns` returns exactly 3 associations: each keeps one science member
as science, relabels the other two to background, and carries the
non-science member through; and in general every returned split has passed
the validity predicate, invalid splits being silently dropped. -/
theorem make_nod_asns_three_sciences (a : Asn) (pname : String)
    (s1 s2 s3 n1 : Member)
    (hp : a.products = [⟨pname, [s1, s2, s3, n1]⟩])
    (hs1 : s1.exptype = "science") (hs2 : s2.exptype = "science")
    (hs3 : s3.exptype = "science") (hn : n1.exptype ≠ "science")
    (h12 : s1.expname ≠ s2.expname) (h13 : s1.expname ≠ s3.expname)
    (h23 : s2.expname ≠ s3.expname)
    (hcand : a.acid_type = "observation" ∨ a.acid_type = "background") :
    (make_nod_asns a).length = 3 ∧
    make_nod_asns a =
      [{ a with products := [⟨(remove_suffix (splitextBase (pathTail s1.expname)).1).1,
          [s1, { s2 with exptype := "background" },
           { s3 with exptype := "background" }, n1]⟩] },
       { a with products := [⟨(remove_suffix (splitextBase (pathTail s2.expname)).1).1,
          [s2, { s1 with exptype := "background" },
           { s3 with exptype := "background" }, n1]⟩] },
       { a with products := [⟨(remove_suffix (splitextBase (pathTail s3.expname)).1).1,
          [s3, { s1 with exptype := "background" },
           { s2 with exptype := "background" }, n1]⟩] }] ∧
    (∀ c : Asn, ∀ b ∈ make_nod_asns c, is_valid b = true) := by
  have hvalid_all : ∀ c : Asn, ∀ b ∈ make_nod_asns c, is_valid b = true := by
    intro c b hb
    unfold make_nod_asns at hb
    cases hcp : c.products with
    | nil => rw [hcp] at hb; simp at hb
    | cons pr rest => rw [hcp] at hb; exact (List.mem_filter.mp hb).2
  have hb1 : (s1.exptype == "science") = true := beq_iff_eq.mpr hs1
  have hb2 : (s2.exptype == "science") = true := beq_iff_eq.mpr hs2
  have hb3 : (s3.exptype == "science") = true := beq_iff_eq.mpr hs3
  have hbn : (n1.exptype == "science") = false := beq_eq_false_iff_ne.mpr hn
  have he11 : (s1.expname == s1.expname) = true := beq_self_eq_true _
  have he22 : (s2.expname == s2.expname) = true := beq_self_eq_true _
  have he33 : (s3.expname == s3.expname) = true := beq_self_eq_true _
  have he21 : (s2.expname == s1.expname) = false := beq_eq_false_iff_ne.mpr (Ne.symm h12)
  have he31 : (s3.expname == s1.expname) = false := beq_eq_false_iff_ne.mpr (Ne.symm h13)
  have he12 : (s1.expname == s2.expname) = false := beq_eq_false_iff_ne.mpr h12
  have he32 : (s3.expname == s2.expname) = false := beq_eq_false_iff_ne.mpr (Ne.symm h23)
  have he13 : (s1.expname == s3.expname) = false := beq_eq_false_iff_ne.mpr h13
  have he23 : (s2.expname == s3.expname) = false := beq_eq_false_iff_ne.mpr h23
  have hstep : make_nod_asns a =
      ([{ a with products := [⟨(remove_suffix (splitextBase (pathTail s1.expname)).1).1,
            [s1, { s2 with exptype := "background" },
             { s3 with exptype := "background" }, n1]⟩] },
         { a with products := [⟨(remove_suffix (splitextBase (pathTail s2.expname)).1).1,
            [s2, { s1 with exptype := "background" },
             { s3 with exptype := "background" }, n1]⟩] },
         { a with products := [⟨(remove_suffix (splitextBase (pathTail s3.expname)).1).1,
            [s3, { s1 with exptype := "background" },
             { s2 with exptype := "background" }, n1]⟩] }] : List Asn).filter is_valid := by
    unfold make_nod_asns
    rw [hp]
    simp [hb1, hb2, hb3, hbn, he11, he22, he33,
      he21, he31, he12, he32, he13, he23]
  have hv1 : is_valid { a with products :=
      [⟨(remove_suffix (splitextBase (pathTail s1.expname)).1).1,
        [s1, { s2 with exptype := "background" },
         { s3 with exptype := "background" }, n1]⟩] } = true :=
    is_valid_split _ _ _ _ _ _ rfl hs1 rfl hcand
  have hv2 : is_valid { a with products :=
      [⟨(remove_suffix (splitextBase (pathTail s2.expname)).1).1,
        [s2, { s1 with exptype := "background" },
         { s3 with exptype := "background" }, n1]⟩] } = true :=
    is_valid_split _ _ _ _ _ _ rfl hs2 rfl hcand
  have hv3 : is_valid { a with products :=
      [⟨(remove_suffix (splitextBase (pathTail s3.expname)).1).1,
        [s3, { s1 with exptype := "background" },
         { s2 with exptype := "background" }, n1]⟩] } = true :=
    is_valid_split _ _ _ _ _ _ rfl hs3 rfl hcand
  have hmain : make_nod_asns a =
      [{ a with products := [⟨(remove_suffix (splitextBase (pathTail s1.expname)).1).1,
          [s1, { s2 with exptype := "background" },
           { s3 with exptype := "background" }, n1]⟩] },
       { a with products := [⟨(remove_suffix (splitextBase (pathTail s2.expname)).1).1,
          [s2, { s1 with exptype := "background" },
           { s3 with exptype := "background" }, n1]⟩] },
       { a with products := [⟨(remove_suffix (splitextBase (pathTail s3.expname)).1).1,
          [s3, { s1 with exptype := "background" },
           { s2 with exptype := "background" }, n1]⟩] }] := by
    rw [hstep, List.filter_cons_of_pos hv1, List.filter_cons_of_pos hv2,
      List.filter_cons_of_pos hv3, List.filter_nil]
  exact ⟨by rw [hmain]; rfl, hmain, hvalid_all⟩

/-- Witness for C8: a concrete three-science nod association splits into its
three expected outputs. -/
theorem make_nod_asns_three_sciences_witness :
    (make_nod_asns
      ⟨"spec2", "o001", "observation",
        [⟨"jw1", [⟨"a_rate.fits", "science"⟩, ⟨"b_rate.fits", "science"⟩,
                  ⟨"c_rate.fits", "science"⟩, ⟨"d_rate.fits", "imprint"⟩]⟩]⟩).length = 3 :=
  (make_nod_asns_three_sciences
    ⟨"spec2", "o001", "observation",
      [⟨"jw1", [⟨"a_rate.fits", "science"⟩, ⟨"b_rate.fits", "science"⟩,
                ⟨"c_rate.fits", "science"⟩, ⟨"d_rate.fits", "imprint"⟩]⟩]⟩
    "jw1" ⟨"a_rate.fits", "science"⟩ ⟨"b_rate.fits", "science"⟩
    ⟨"c_rate.fits", "science"⟩ ⟨"d_rate.fits", "imprint"⟩
    rfl rfl rfl rfl (by decide) (by decide) (by decide) (by decide)
    (Or.inl rfl)).1

end Jwst

namespace Jwst

/-! ## C9 — the bulk-add path -/

/-- The empty prefix check always succeeds. -/
lemma nil_isPrefixOf_eq_true (xs : List Char) :
    ([] : List Char).isPrefixOf xs = true := by
  cases xs <;> rfl

/-- Distinct single-character prefixes are mutually exclusive. -/
lemma isPrefixOf_single_exclusive (c d : Char) (l : List Char) (hcd : c ≠ d)
    (h : [c].isPrefixOf l = true) : [d].isPrefixOf l = false := by
  cases l with
  | nil => exact absurd h (by intro hx; exact Bool.false_ne_true hx)
  | cons x xs =>
    change (c == x && ([] : List Char).isPrefixOf xs) = true at h
    rw [nil_isPrefixOf_eq_true, Bool.and_true] at h
    change (d == x && ([] : List Char).isPrefixOf xs) = false
    rw [nil_isPrefixOf_eq_true, Bool.and_true]
    rw [beq_iff_eq] at h
    subst h
    exact beq_eq_false_iff_ne.mpr (Ne.symm hcd)

/-- A string starting with `c` does not start with `o`. -/
lemma startswith_c_not_o (s : String) (h : startswith s "c" = true) :
    startswith s "o" = false := by
  unfold startswith at *
  exact isPrefixOf_single_exclusive 'c' 'o' s.toList (by decide) h

/-- **C9.**  `_add_items` derives the candidate type from the id's leading
character — `o` gives observation, `c` gives background — and any other
leading character yields the `ValueError` immediately, producing no
association (hence no member) at all; on a valid prefix the result appends
one product per input item, each holding a single member tagged `science`;
and a `product_name_func` that raises on every item leaves the result
exactly as if no naming function had been passed (default derived names,
failure not propagated). -/
theorem add_items_spec (a : Asn) (items : List String) (acid : String)
    (pnf : Option (String → Nat → Except Unit String)) :
    (¬ startswith acid "o" = true → ¬ startswith acid "c" = true →
      add_items a items acid pnf =
        .error ("Invalid association id specified: " ++ acid)) ∧
    (startswith acid "o" = true → ∃ a', add_items a items acid pnf = .ok a' ∧
      a'.acid_type = "observation" ∧ a'.asn_id = acid ∧
      ∃ ps, a'.products = a.products ++ ps ∧ ps.length = items.length ∧
        ∀ p ∈ ps, ∃ it ∈ items, p.members = [⟨it, "science"⟩]) ∧
    (startswith acid "c" = true → ∃ a', add_items a items acid pnf = .ok a' ∧
      a'.acid_type = "background" ∧ a'.asn_id = acid ∧
      ∃ ps, a'.products = a.products ++ ps ∧ ps.length = items.length ∧
        ∀ p ∈ ps, ∃ it ∈ items, p.members = [⟨it, "science"⟩]) ∧
    (∀ f : String → Nat → Except Unit String, (∀ it idx, f it idx = .error ()) →
      add_items a items acid (some f) = add_items a items acid none) := by
  refine ⟨?_, ?_, ?_, ?_⟩
  · intro h1 h2
    unfold add_items
    rw [if_neg]
    intro hor
    exact hor.elim h1 h2
  · intro ho
    unfold add_items
    rw [if_pos (Or.inl ho), if_pos ho]
    refine ⟨_, rfl, rfl, rfl, _, rfl, by rw [List.length_map, List.enumFrom_length], ?_⟩
    intro p hp
    rw [List.mem_map] at hp
    obtain ⟨q, hq, rfl⟩ := hp
    exact ⟨q.2, List.snd_mem_of_mem_enumFrom hq, rfl⟩
  · intro hc
    unfold add_items
    rw [if_pos (Or.inr hc), if_neg]
    · refine ⟨_, rfl, rfl, rfl, _, rfl, by rw [List.length_map, List.enumFrom_length], ?_⟩
      intro p hp
      rw [List.mem_map] at hp
      obtain ⟨q, hq, rfl⟩ := hp
      exact ⟨q.2, List.snd_mem_of_mem_enumFrom hq, rfl⟩
    · rw [startswith_c_not_o acid hc]
      exact Bool.false_ne_true
  · intro f hf
    unfold add_items
    simp only [hf]

/-- Witness for C9: an invalid prefix errors; a `o`-prefixed candidate id
builds science products. -/
theorem add_items_spec_witness :
    add_items ⟨"image2", "x", "y", []⟩ ["f1_uncal.fits"] "q999" none =
      .error ("Invalid association id specified: " ++ "q999") ∧
    (∃ a', add_items ⟨"image2", "x", "y", []⟩ ["f1_uncal.fits"] "o001" none = .ok a' ∧
      a'.acid_type = "observation" ∧ a'.asn_id = "o001" ∧
      ∃ ps, a'.products = (⟨"image2", "x", "y", []⟩ : Asn).products ++ ps ∧
        ps.length = (["f1_uncal.fits"] : List String).length ∧
        ∀ p ∈ ps, ∃ it ∈ (["f1_uncal.fits"] : List String),
          p.members = [⟨it, "science"⟩]) := by
  constructor
  · exact (add_items_spec ⟨"image2", "x", "y", []⟩ ["f1_uncal.fits"] "q999" none).1
      (by decide) (by decide)
  · exact (add_items_spec ⟨"image2", "x", "y", []⟩ ["f1_uncal.fits"] "o001" none).2.1
      (by decide)

end Jwst

namespace Jwst

/-! ## C7 — token-set product-name comparison -/

/-- **C7.**  The diff engine compares product names by token set: two names
(when paired inside `compare_membership`) match exactly when the sets of
tokens obtained by splitting on `_`/`-` coincide; `jw00001_nrs_cal` and
`jw00001_cal_nrs` compare equal while `jw00001_nrs_cal` and
`jw00001_mir_cal` do not, and `compare_membership` accordingly pairs the
former product names and fails to pair the latter. -/
theorem product_name_token_sets (s t : String) :
    (components s = components t ↔
      (∀ tok, tok ∈ (splitSep (fun c => c == '_' || c == '-') s.toList).map String.mk ↔
              tok ∈ (splitSep (fun c => c == '_' || c == '-') t.toList).map String.mk)) ∧
    components "jw00001_nrs_cal" = components "jw00001_cal_nrs" ∧
    components "jw00001_nrs_cal" ≠ components "jw00001_mir_cal" ∧
    compare_membership
      ⟨"image2", "o001", "observation", [⟨"jw00001_nrs_cal", []⟩]⟩
      ⟨"image2", "o001", "observation", [⟨"jw00001_cal_nrs", []⟩]⟩ = .ok () ∧
    compare_membership
      ⟨"image2", "o001", "observation", [⟨"jw00001_nrs_cal", []⟩]⟩
      ⟨"image2", "o001", "observation", [⟨"jw00001_mir_cal", []⟩]⟩ =
        .error .leftProductLeftover := by
  refine ⟨?_, by decide, by decide, rfl, rfl⟩
  constructor
  · intro h tok
    unfold components at h
    rw [← List.mem_toFinset, ← List.mem_toFinset, h]
  · intro h
    unfold components
    apply Finset.ext
    intro tok
    rw [List.mem_toFinset, List.mem_toFinset]
    exact h tok

end Jwst

namespace Jwst

/-! ## C5/C6 — member matching characterised by per-name role sequences -/

lemma roleSeq_nil (x : String) : roleSeq [] x = [] := rfl

lemma roleSeq_cons_pos (m : Member) (ms : List Member) (x : String)
    (h : m.expname = x) : roleSeq (m :: ms) x = m.exptype :: roleSeq ms x := by
  unfold roleSeq
  rw [List.filter_cons_of_pos (by rw [h]; exact beq_self_eq_true x), List.map_cons]

lemma roleSeq_cons_neg (m : Member) (ms : List Member) (x : String)
    (h : m.expname ≠ x) : roleSeq (m :: ms) x = roleSeq ms x := by
  unfold roleSeq
  rw [List.filter_cons_of_neg (by simp [h])]

/-- A successful `consumeMember` removes exactly the first same-name member,
whose role equals the left member's: the consumed name's role sequence loses
its head, all other role sequences are untouched, and the length drops by
one. -/
lemma consumeMember_ok_roleSeq (lm : Member) (rs rs' : List Member)
    (h : consumeMember lm rs = .ok rs') :
    roleSeq rs lm.expname = lm.exptype :: roleSeq rs' lm.expname ∧
    (∀ x, x ≠ lm.expname → roleSeq rs x = roleSeq rs' x) ∧
    rs.length = rs'.length + 1 := by
  induction rs generalizing rs' with
  | nil => exact absurd h (by intro hx; cases hx)
  | cons r rest ih =>
    unfold consumeMember at h
    by_cases he : lm.expname == r.expname
    · rw [if_pos he] at h
      rw [beq_iff_eq] at he
      by_cases ht : lm.exptype == r.exptype
      · rw [if_pos ht] at h
        rw [beq_iff_eq] at ht
        cases h
        refine ⟨?_, ?_, rfl⟩
        · rw [roleSeq_cons_pos r rest lm.expname he.symm, ht]
        · intro x hx
          rw [roleSeq_cons_neg r rest x (by rw [← he]; exact fun hc => hx hc.symm)]
      · rw [if_neg ht] at h
        cases h
    · rw [if_neg he] at h
      replace he : lm.expname ≠ r.expname := by simpa using he
      cases hc : consumeMember lm rest with
      | error e => rw [hc] at h; cases h
      | ok rest' =>
        rw [hc] at h
        cases h
        obtain ⟨ih1, ih2, ih3⟩ := ih rest' hc
        have hrne : r.expname ≠ lm.expname := fun hx => he hx.symm
        refine ⟨?_, ?_, ?_⟩
        · rw [roleSeq_cons_neg r rest lm.expname hrne,
            roleSeq_cons_neg r rest' lm.expname hrne]
          exact ih1
        · intro x hx
          by_cases hr : r.expname = x
          · rw [roleSeq_cons_pos r rest x hr, roleSeq_cons_pos r rest' x hr, ih2 x hx]
          · rw [roleSeq_cons_neg r rest x hr, roleSeq_cons_neg r rest' x hr]
            exact ih2 x hx
        · simp only [List.length_cons]
          omega

/-- If the right side's role sequence for the left member's name starts with
the left member's role, `consumeMember` succeeds. -/
lemma consumeMember_ok_of_roleSeq (lm : Member) (rs : List Member) (t : List String)
    (h : roleSeq rs lm.expname = lm.exptype :: t) :
    ∃ rs', consumeMember lm rs = .ok rs' := by
  induction rs generalizing t with
  | nil => exact absurd h (by intro hx; cases hx)
  | cons r rest ih =>
    by_cases he : r.expname = lm.expname
    · rw [roleSeq_cons_pos r rest lm.expname he] at h
      have ht : r.exptype = lm.exptype := (List.cons.injEq _ _ _ _ ▸ h).1
      refine ⟨rest, ?_⟩
      unfold consumeMember
      rw [if_pos (by rw [he]; exact beq_self_eq_true _),
        if_pos (by rw [ht]; exact beq_self_eq_true _)]
    · rw [roleSeq_cons_neg r rest lm.expname he] at h
      obtain ⟨rs', hc⟩ := ih _ h
      refine ⟨r :: rs', ?_⟩
      unfold consumeMember
      rw [if_neg (by simp; exact fun hx => he hx.symm), hc]

/-- A successful member matching consumes exactly one right member per left
member. -/
lemma matchMembers_ok_length (ls : List Member) (rs rem : List Member)
    (h : matchMembers ls rs = .ok rem) :
    rs.length = ls.length + rem.length := by
  induction ls generalizing rs with
  | nil =>
    unfold matchMembers at h
    cases h
    simp
  | cons l ls ih =>
    unfold matchMembers at h
    cases hc : consumeMember l rs with
    | error e => rw [hc] at h; cases h
    | ok rs' =>
      rw [hc] at h
      have h3 := (consumeMember_ok_roleSeq l rs rs' hc).2.2
      have := ih rs' h
      simp only [List.length_cons]
      omega

/-- The matching loop succeeds with no rights left over exactly when, for
every exposure name, the left and right role sequences coincide. -/
lemma matchMembers_ok_nil_iff (ls rs : List Member) :
    matchMembers ls rs = .ok [] ↔ ∀ x, roleSeq ls x = roleSeq rs x := by
  induction ls generalizing rs with
  | nil =>
    constructor
    · intro h x
      unfold matchMembers at h
      cases h
      rfl
    · intro h
      unfold matchMembers
      cases rs with
      | nil => rfl
      | cons r rest =>
        have := h r.expname
        rw [roleSeq_nil, roleSeq_cons_pos r rest r.expname rfl] at this
        cases this
  | cons l ls ih =>
    constructor
    · intro h x
      unfold matchMembers at h
      cases hc : consumeMember l rs with
      | error e => rw [hc] at h; cases h
      | ok rs' =>
        rw [hc] at h
        obtain ⟨h1, h2, _⟩ := consumeMember_ok_roleSeq l rs rs' hc
        have hx := (ih rs').mp h
        by_cases hxe : x = l.expname
        · rw [roleSeq_cons_pos l ls x hxe.symm, hxe, h1, hx l.expname]
        · rw [roleSeq_cons_neg l ls x (fun hc2 => hxe hc2.symm), hx x,
            h2 x hxe]
    · intro h
      have h1 : roleSeq rs l.expname = l.exptype :: roleSeq ls l.expname := by
        have := h l.expname
        rw [roleSeq_cons_pos l ls l.expname rfl] at this
        exact this.symm
      obtain ⟨rs', hc⟩ := consumeMember_ok_of_roleSeq l rs _ h1
      obtain ⟨hh1, hh2, _⟩ := consumeMember_ok_roleSeq l rs rs' hc
      unfold matchMembers
      rw [hc]
      apply (ih rs').mpr
      intro x
      by_cases hxe : x = l.expname
      · rw [hxe]
        have hcons := h1.symm.trans hh1
        simpa using hcons
      · rw [← hh2 x hxe, ← h x, roleSeq_cons_neg l ls x (fun hc2 => hxe hc2.symm)]

end Jwst

namespace Jwst

/-- Pairing a single left product with the like-named single right product
succeeds exactly when the per-name role sequences agree. -/
lemma compareProducts_single (pl pr : Product) (hn : pl.name = pr.name) :
    compareProducts [pl] [pr] = .ok () ↔
      ∀ x, roleSeq pl.members x = roleSeq pr.members x := by
  have hfind : findMatchingProduct pl [pr] = .ok (pr, []) := by
    unfold findMatchingProduct
    rw [if_pos (by rw [hn])]
  unfold compareProducts
  rw [hfind]
  show (if pr.members.length ≠ pl.members.length then
      Except.error (DiffError.memberCountMismatch pl.members.length pr.members.length)
    else
      match matchMembers pl.members pr.members with
      | Except.error e => Except.error e
      | Except.ok [] => compareProducts [] []
      | Except.ok (m :: rem) =>
        Except.error (DiffError.rightMemberLeftover (m :: rem).length m.expname m.exptype))
      = Except.ok () ↔ _
  by_cases hlen : pr.members.length = pl.members.length
  · rw [if_neg (not_not_intro hlen)]
    constructor
    · intro h
      cases hm : matchMembers pl.members pr.members with
      | error e => rw [hm] at h; cases h
      | ok rem =>
        rw [hm] at h
        cases rem with
        | nil => exact (matchMembers_ok_nil_iff _ _).mp hm
        | cons m rem' => cases h
    · intro h
      rw [(matchMembers_ok_nil_iff pl.members pr.members).mpr h]
      rfl
  · rw [if_pos hlen]
    constructor
    · intro h
      cases h
    · intro h
      have hlen2 := matchMembers_ok_length pl.members pr.members []
        ((matchMembers_ok_nil_iff pl.members pr.members).mpr h)
      simp at hlen2
      exact absurd hlen2 hlen

/-- `compare_membership` on like-named single-product associations succeeds
exactly when the per-name role sequences agree. -/
lemma compare_membership_single (l r : Asn) (pl pr : Product)
    (hl : l.products = [pl]) (hr : r.products = [pr]) (hn : pl.name = pr.name) :
    compare_membership l r = .ok () ↔
      ∀ x, roleSeq pl.members x = roleSeq pr.members x := by
  unfold compare_membership
  rw [hl, hr, if_neg (by simp)]
  exact compareProducts_single pl pr hn

/-- The failures `compare_membership` can raise on two like-named
single-product associations: member-count mismatch, role mismatch, a left
member with no counterpart, or unconsumed right members. -/
def isMembershipFailure : DiffError → Prop
  | .memberCountMismatch _ _ => True
  | .roleMismatch _ _ _ _ => True
  | .noCounterpart _ _ => True
  | .rightMemberLeftover _ _ _ => True
  | _ => False

/-- Errors produced by `consumeMember` are no-counterpart or role-mismatch
failures. -/
lemma consumeMember_error_shape (lm : Member) (rs : List Member) (e : DiffError)
    (h : consumeMember lm rs = .error e) : isMembershipFailure e := by
  induction rs with
  | nil =>
    unfold consumeMember at h
    cases h
    trivial
  | cons r rest ih =>
    unfold consumeMember at h
    by_cases he : lm.expname == r.expname
    · rw [if_pos he] at h
      by_cases ht : lm.exptype == r.exptype
      · rw [if_pos ht] at h
        cases h
      · rw [if_neg ht] at h
        cases h
        trivial
    · rw [if_neg he] at h
      cases hc : consumeMember lm rest with
      | error e' =>
        rw [hc] at h
        cases h
        exact ih hc
      | ok rest' => rw [hc] at h; cases h

/-- Errors produced by the member-matching loop are no-counterpart or
role-mismatch failures. -/
lemma matchMembers_error_shape (ls rs : List Member) (e : DiffError)
    (h : matchMembers ls rs = .error e) : isMembershipFailure e := by
  induction ls generalizing rs with
  | nil => unfold matchMembers at h; cases h
  | cons l ls ih =>
    unfold matchMembers at h
    cases hc : consumeMember l rs with
    | error e' =>
      rw [hc] at h
      cases h
      exact consumeMember_error_shape l rs e hc
    | ok rs' =>
      rw [hc] at h
      exact ih rs' h

/-- Error classification for like-named single-product associations. -/
lemma compare_membership_single_error (l r : Asn) (pl pr : Product)
    (hl : l.products = [pl]) (hr : r.products = [pr]) (hn : pl.name = pr.name)
    (e : DiffError) (h : compare_membership l r = .error e) :
    isMembershipFailure e := by
  unfold compare_membership at h
  rw [hl, hr, if_neg (by simp)] at h
  have hfind : findMatchingProduct pl [pr] = .ok (pr, []) := by
    unfold findMatchingProduct
    rw [if_pos (by rw [hn])]
  unfold compareProducts at h
  rw [hfind] at h
  replace h : (if pr.members.length ≠ pl.members.length then
      Except.error (DiffError.memberCountMismatch pl.members.length pr.members.length)
    else
      match matchMembers pl.members pr.members with
      | Except.error e => Except.error e
      | Except.ok [] => compareProducts [] []
      | Except.ok (m :: rem) =>
        Except.error (DiffError.rightMemberLeftover (m :: rem).length m.expname m.exptype))
      = Except.error e := h
  by_cases hlen : pr.members.length ≠ pl.members.length
  · rw [if_pos hlen] at h
    cases h
    trivial
  · rw [if_neg hlen] at h
    cases hm : matchMembers pl.members pr.members with
    | error e' =>
      rw [hm] at h
      cases h
      exact matchMembers_error_shape pl.members pr.members e hm
    | ok rem =>
      rw [hm] at h
      cases rem with
      | nil => cases h
      | cons m rem' =>
        cases h
        trivial

end Jwst

namespace Jwst

/-- **C6.**  On two like-named products, `compare_membership` matches members
bijectively by exposure name — the i-th left occurrence of a name consumes
the i-th unconsumed right occurrence, whose role must agree — so it succeeds
exactly when every exposure name carries the same role sequence on both
sides, and raises exactly otherwise: a left member without an unconsumed
same-name counterpart, a matched pair differing in role, unconsumed right
members after the loop (or the member-count shortcut of the same
conditions); every raised failure is of one of those kinds.  In particular
`[a:science, b:background]` against `[b:background, a:science]` succeeds,
while flipping `b`'s role to science on the right raises the role-mismatch
failure naming `b`. -/
theorem compare_membership_bijective (l r : Asn) (pl pr : Product)
    (hl : l.products = [pl]) (hr : r.products = [pr]) (hn : pl.name = pr.name) :
    (compare_membership l r = .ok () ↔
      ∀ x, roleSeq pl.members x = roleSeq pr.members x) ∧
    (∀ e, compare_membership l r = .error e → isMembershipFailure e) ∧
    compare_membership
      ⟨"spec2", "o001", "observation", [⟨"p", [⟨"a", "science"⟩, ⟨"b", "background"⟩]⟩]⟩
      ⟨"spec2", "o001", "observation", [⟨"p", [⟨"b", "background"⟩, ⟨"a", "science"⟩]⟩]⟩
      = .ok () ∧
    compare_membership
      ⟨"spec2", "o001", "observation", [⟨"p", [⟨"a", "science"⟩, ⟨"b", "background"⟩]⟩]⟩
      ⟨"spec2", "o001", "observation", [⟨"p", [⟨"b", "science"⟩, ⟨"a", "science"⟩]⟩]⟩
      = .error (.roleMismatch "b" "background" "b" "science") :=
  ⟨compare_membership_single l r pl pr hl hr hn,
   fun e he => compare_membership_single_error l r pl pr hl hr hn e he,
   rfl, rfl⟩

/-- Witness for C6 at the spec's concrete example. -/
theorem compare_membership_bijective_witness :
    compare_membership
      ⟨"spec2", "o001", "observation", [⟨"p", [⟨"a", "science"⟩, ⟨"b", "background"⟩]⟩]⟩
      ⟨"spec2", "o001", "observation", [⟨"p", [⟨"b", "background"⟩, ⟨"a", "science"⟩]⟩]⟩
      = .ok () ∧
    compare_membership
      ⟨"spec2", "o001", "observation", [⟨"p", [⟨"a", "science"⟩, ⟨"b", "background"⟩]⟩]⟩
      ⟨"spec2", "o001", "observation", [⟨"p", [⟨"b", "science"⟩, ⟨"a", "science"⟩]⟩]⟩
      = .error (.roleMismatch "b" "background" "b" "science") := by
  have h := compare_membership_bijective
    ⟨"spec2", "o001", "observation", [⟨"p", [⟨"a", "science"⟩, ⟨"b", "background"⟩]⟩]⟩
    ⟨"spec2", "o001", "observation", [⟨"p", [⟨"b", "background"⟩, ⟨"a", "science"⟩]⟩]⟩
    ⟨"p", [⟨"a", "science"⟩, ⟨"b", "background"⟩]⟩
    ⟨"p", [⟨"b", "background"⟩, ⟨"a", "science"⟩]⟩
    rfl rfl rfl
  exact ⟨h.2.2.1, h.2.2.2⟩

end Jwst

namespace Jwst

lemma firstProductName_single (a : Asn) (p : Product) (hp : a.products = [p]) :
    firstProductName a = p.name := by
  unfold firstProductName
  rw [hp]

/-- Pass/fail of `compare_asns` is symmetric on like-named single-product
associations: every check it makes (type, candidate level, membership) is
symmetric. -/
lemma compare_asns_symm (l r : Asn) (pl pr : Product)
    (hl : l.products = [pl]) (hr : r.products = [pr]) (hn : pl.name = pr.name) :
    (compare_asns l r = .ok () ↔ compare_asns r l = .ok ()) := by
  unfold compare_asns
  by_cases ht : l.asn_type = r.asn_type
  · rw [if_neg (not_not_intro ht), if_neg (not_not_intro ht.symm)]
    by_cases hh : l.asn_id.toList.head? = r.asn_id.toList.head?
    · rw [if_neg (not_not_intro hh), if_neg (not_not_intro hh.symm)]
      rw [compare_membership_single l r pl pr hl hr hn,
        compare_membership_single r l pr pl hr hl hn.symm]
      constructor <;> intro h x <;> exact (h x).symm
    · rw [if_pos hh, if_pos (fun hx => hh hx.symm)]
      constructor <;> intro h <;> cases h
  · rw [if_pos ht, if_pos (fun hx => ht hx.symm)]
    constructor <;> intro h <;> cases h

/-- The per-name comparison loop succeeds exactly when every listed name has
its association found on both sides and the pair compares clean. -/
lemma comparePairs_ok_iff (A B : List Asn) (ns : List String) :
    comparePairs A B ns = .ok () ↔
      ∀ n ∈ ns, ∃ la ra,
        A.find? (fun a => firstProductName a == n) = some la ∧
        B.find? (fun a => firstProductName a == n) = some ra ∧
        compare_asns la ra = .ok () := by
  induction ns with
  | nil => simp [comparePairs]
  | cons n ns ih =>
    have unpack : comparePairs A B (n :: ns) = .ok () →
        (∃ la ra, A.find? (fun a => firstProductName a == n) = some la ∧
          B.find? (fun a => firstProductName a == n) = some ra ∧
          compare_asns la ra = .ok ()) ∧ comparePairs A B ns = .ok () := by
      intro h
      unfold comparePairs at h
      cases hfa : A.find? (fun a => firstProductName a == n) with
      | none => rw [hfa] at h; cases h
      | some la =>
        rw [hfa] at h
        cases hfb : B.find? (fun a => firstProductName a == n) with
        | none => rw [hfb] at h; cases h
        | some ra =>
          rw [hfb] at h
          replace h : (match compare_asns la ra with
            | Except.ok _ => comparePairs A B ns
            | Except.error e => Except.error e) = Except.ok () := h
          cases hca : compare_asns la ra with
          | error e => rw [hca] at h; cases h
          | ok u =>
            rw [hca] at h
            exact ⟨⟨la, ra, rfl, rfl, hca⟩, h⟩
    constructor
    · intro h n' hn'
      rcases List.mem_cons.mp hn' with rfl | hmem
      · exact (unpack h).1
      · exact (ih.mp (unpack h).2) n' hmem
    · intro h
      obtain ⟨la, ra, hfa, hfb, hca⟩ := h n (List.mem_cons_self n ns)
      have htail : comparePairs A B ns = .ok () :=
        ih.mpr (fun n' hn' => h n' (List.mem_cons_of_mem n hn'))
      unfold comparePairs
      rw [hfa, hfb]
      show (match compare_asns la ra with
        | Except.ok _ => comparePairs A B ns
        | Except.error e => Except.error e) = Except.ok ()
      rw [hca]
      exact htail

/-- `compare_asn_lists` succeeds exactly when both sides are duplicate-free,
the product-name sets agree, and every per-name pair compares clean. -/
lemma compare_asn_lists_ok_iff (A B : List Asn) :
    compare_asn_lists A B = .ok () ↔
      dupNames A = [] ∧ dupNames B = [] ∧
      (∀ n, n ∈ productNames A ↔ n ∈ productNames B) ∧
      comparePairs A B (productNames A) = .ok () := by
  simp only [compare_asn_lists]
  by_cases h1 : dupNames A = []
  · by_cases h2 : dupNames B = []
    · rw [if_neg (not_not_intro h1), if_neg (not_not_intro h2)]
      by_cases h3 : (productNames A).filter (fun n => !((productNames B).contains n)) ++
          (productNames B).filter (fun n => !((productNames A).contains n)) = []
      · rw [if_neg (not_not_intro h3)]
        have hset : ∀ n, n ∈ productNames A ↔ n ∈ productNames B := by
          obtain ⟨hfa, hfb⟩ := List.append_eq_nil.mp h3
          rw [List.filter_eq_nil_iff] at hfa hfb
          intro n
          constructor
          · intro hn
            by_contra hnb
            exact (hfa n hn) (by simpa using hnb)
          · intro hn
            by_contra hna
            exact (hfb n hn) (by simpa using hna)
        simp [h1, h2, hset]
      · rw [if_pos h3]
        constructor
        · intro h; cases h
        · rintro ⟨-, -, hset, -⟩
          exfalso
          apply h3
          rw [List.append_eq_nil]
          constructor <;> rw [List.filter_eq_nil_iff] <;> intro n hn
          · simp [(hset n).mp hn]
          · simp [(hset n).mpr hn]
    · rw [if_neg (not_not_intro h1), if_pos h2]
      constructor
      · intro h; cases h
      · rintro ⟨-, hb, -, -⟩; exact absurd hb h2
  · rw [if_pos h1]
    constructor
    · intro h; cases h
    · rintro ⟨ha, -, -, -⟩; exact absurd ha h1

/-- **C5.**  For every pair of lists of single-product associations,
`compare_asn_lists (A, B)` completes without raising iff
`compare_asn_lists (B, A)` does: each of its checks — duplicate product
names, product-name set equality, type/candidate-level equality, bijective
membership — is pass/fail symmetric. -/
theorem compare_asn_lists_symm (A B : List Asn)
    (hA : ∀ a ∈ A, ∃ p, a.products = [p]) (hB : ∀ b ∈ B, ∃ p, b.products = [p]) :
    (compare_asn_lists A B = .ok () ↔ compare_asn_lists B A = .ok ()) := by
  rw [compare_asn_lists_ok_iff, compare_asn_lists_ok_iff]
  constructor
  · rintro ⟨h1, h2, hset, hpairs⟩
    refine ⟨h2, h1, fun n => (hset n).symm, ?_⟩
    rw [comparePairs_ok_iff] at hpairs ⊢
    intro n hn
    obtain ⟨la, ra, hfa, hfb, hok⟩ := hpairs n ((hset n).mpr hn)
    refine ⟨ra, la, hfb, hfa, ?_⟩
    obtain ⟨pla, hpla⟩ := hA la (List.mem_of_find?_eq_some hfa)
    obtain ⟨pra, hpra⟩ := hB ra (List.mem_of_find?_eq_some hfb)
    have h5 : pla.name = pra.name := by
      have e1 : firstProductName la = n := by simpa using List.find?_some hfa
      have e2 : firstProductName ra = n := by simpa using List.find?_some hfb
      rw [firstProductName_single la pla hpla] at e1
      rw [firstProductName_single ra pra hpra] at e2
      rw [e1, e2]
    exact (compare_asns_symm la ra pla pra hpla hpra h5).mp hok
  · rintro ⟨h1, h2, hset, hpairs⟩
    refine ⟨h2, h1, fun n => (hset n).symm, ?_⟩
    rw [comparePairs_ok_iff] at hpairs ⊢
    intro n hn
    obtain ⟨lb, ra, hfb, hfa, hok⟩ := hpairs n ((hset n).mpr hn)
    refine ⟨ra, lb, hfa, hfb, ?_⟩
    obtain ⟨plb, hplb⟩ := hB lb (List.mem_of_find?_eq_some hfb)
    obtain ⟨pra, hpra⟩ := hA ra (List.mem_of_find?_eq_some hfa)
    have h5 : plb.name = pra.name := by
      have e1 : firstProductName lb = n := by simpa using List.find?_some hfb
      have e2 : firstProductName ra = n := by simpa using List.find?_some hfa
      rw [firstProductName_single lb plb hplb] at e1
      rw [firstProductName_single ra pra hpra] at e2
      rw [e1, e2]
    exact (compare_asns_symm lb ra plb pra hplb hpra h5).mp hok

/-- Witness for C5 on a concrete pair of single-product lists. -/
theorem compare_asn_lists_symm_witness :
    (compare_asn_lists
        [⟨"image2", "o001", "observation", [⟨"p", [⟨"a", "science"⟩]⟩]⟩]
        [⟨"image2", "o002", "observation", [⟨"p", [⟨"a", "science"⟩]⟩]⟩] = .ok () ↔
      compare_asn_lists
        [⟨"image2", "o002", "observation", [⟨"p", [⟨"a", "science"⟩]⟩]⟩]
        [⟨"image2", "o001", "observation", [⟨"p", [⟨"a", "science"⟩]⟩]⟩] = .ok ()) :=
  compare_asn_lists_symm _ _
    (by
      intro a ha
      simp only [List.mem_singleton] at ha
      subst ha
      exact ⟨_, rfl⟩)
    (by
      intro a ha
      simp only [List.mem_singleton] at ha
      subst ha
      exact ⟨_, rfl⟩)

end Jwst

namespace Jwst

/-! ## C3/C4 — the prune engine -/

/-- Keys after a `defaultdict` append: unchanged when the key exists, the new
key at the end otherwise. -/
lemma addToGroups_fst (gs : List (String × List Asn)) (n : String) (a : Asn) :
    (addToGroups gs n a).map Prod.fst =
      if n ∈ gs.map Prod.fst then gs.map Prod.fst else gs.map Prod.fst ++ [n] := by
  induction gs with
  | nil => simp [addToGroups]
  | cons q rest ih =>
    obtain ⟨k, l⟩ := q
    unfold addToGroups
    by_cases hk : k = n
    · rw [if_pos (beq_iff_eq.mpr hk)]
      subst hk
      simp
    · rw [if_neg (by simpa using hk)]
      simp only [List.map_cons]
      rw [ih]
      by_cases hn : n ∈ rest.map Prod.fst
      · rw [if_pos hn, if_pos (by simp [hn])]
      · rw [if_neg hn, if_neg (by simp [hn, Ne.symm hk])]
        simp

/-- Membership after a `defaultdict` append, assuming duplicate-free keys:
an untouched other-key entry, the extended existing entry, or the fresh
entry. -/
lemma addToGroups_mem (gs : List (String × List Asn)) (n : String) (a : Asn)
    (hnd : (gs.map Prod.fst).Nodup) (q : String × List Asn)
    (hq : q ∈ addToGroups gs n a) :
    (q ∈ gs ∧ q.1 ≠ n) ∨
    (∃ g, (n, g) ∈ gs ∧ q = (n, g ++ [a])) ∨
    (n ∉ gs.map Prod.fst ∧ q = (n, [a])) := by
  induction gs with
  | nil =>
    unfold addToGroups at hq
    simp only [List.mem_singleton] at hq
    right; right
    exact ⟨by simp, hq⟩
  | cons p rest ih =>
    obtain ⟨k, l⟩ := p
    simp only [List.map_cons, List.nodup_cons] at hnd
    obtain ⟨hknotin, hndrest⟩ := hnd
    unfold addToGroups at hq
    by_cases hk : k = n
    · rw [if_pos (beq_iff_eq.mpr hk)] at hq
      subst hk
      rcases List.mem_cons.mp hq with rfl | hmem
      · right; left
        exact ⟨l, List.mem_cons_self _ _, rfl⟩
      · left
        refine ⟨List.mem_cons_of_mem _ hmem, fun hx => hknotin ?_⟩
        rw [← hx]
        exact List.mem_map_of_mem Prod.fst hmem
    · rw [if_neg (by simpa using hk)] at hq
      rcases List.mem_cons.mp hq with rfl | hmem
      · left
        exact ⟨List.mem_cons_self _ _, hk⟩
      · rcases ih hndrest hmem with ⟨hm, hne⟩ | ⟨g, hg, rfl⟩ | ⟨hnk, rfl⟩
        · exact Or.inl ⟨List.mem_cons_of_mem _ hm, hne⟩
        · exact Or.inr (Or.inl ⟨g, List.mem_cons_of_mem _ hg, rfl⟩)
        · right; right
          refine ⟨?_, rfl⟩
          simp only [List.map_cons, List.mem_cons]
          rintro (h | h)
          · exact hk h.symm
          · exact hnk h

/-- The grouping fold of `to_prune`, with the processed prefix made
explicit: keys stay duplicate-free and name members of the duplicate set,
each group is the name-filter of the processed input, and every processed
association with a duplicated name has its group present. -/
lemma toPrune_fold_inv (D : List String) (l : List Asn) :
    ∀ (pre : List Asn) (gs : List (String × List Asn)),
    (gs.map Prod.fst).Nodup →
    (∀ q ∈ gs, q.1 ∈ D ∧ q.2 = pre.filter (fun a => firstProductName a == q.1)) →
    (∀ a ∈ pre, firstProductName a ∈ D → firstProductName a ∈ gs.map Prod.fst) →
    (((l.foldl (fun gs a =>
        if D.contains (firstProductName a) then addToGroups gs (firstProductName a) a
        else gs) gs).map Prod.fst).Nodup ∧
     (∀ q ∈ l.foldl (fun gs a =>
        if D.contains (firstProductName a) then addToGroups gs (firstProductName a) a
        else gs) gs,
        q.1 ∈ D ∧ q.2 = (pre ++ l).filter (fun a => firstProductName a == q.1)) ∧
     (∀ a ∈ pre ++ l, firstProductName a ∈ D →
        firstProductName a ∈ (l.foldl (fun gs a =>
          if D.contains (firstProductName a) then addToGroups gs (firstProductName a) a
          else gs) gs).map Prod.fst)) := by
  induction l with
  | nil =>
    intro pre gs h1 h2 h3
    rw [List.foldl_nil, List.append_nil]
    exact ⟨h1, h2, h3⟩
  | cons a l ih =>
    intro pre gs h1 h2 h3
    simp only [List.foldl_cons]
    by_cases hD : firstProductName a ∈ D
    · rw [if_pos (by simpa using hD)]
      have k1 : ((addToGroups gs (firstProductName a) a).map Prod.fst).Nodup := by
        rw [addToGroups_fst]
        by_cases hmem : firstProductName a ∈ gs.map Prod.fst
        · rw [if_pos hmem]; exact h1
        · rw [if_neg hmem]
          rw [List.nodup_append]
          exact ⟨h1, List.nodup_singleton _, fun x hx hx2 =>
            hmem ((List.mem_singleton.mp hx2) ▸ hx)⟩
      have k2 : ∀ q ∈ addToGroups gs (firstProductName a) a, q.1 ∈ D ∧
          q.2 = (pre ++ [a]).filter (fun b => firstProductName b == q.1) := by
        intro q hq
        rcases addToGroups_mem gs (firstProductName a) a h1 q hq with
          ⟨hm, hne⟩ | ⟨g, hg, rfl⟩ | ⟨hnk, rfl⟩
        · obtain ⟨hD', hf⟩ := h2 q hm
          refine ⟨hD', ?_⟩
          rw [List.filter_append, hf]
          have : [a].filter (fun b => firstProductName b == q.1) = [] := by
            simp [Ne.symm hne]
          rw [this, List.append_nil]
        · obtain ⟨hD', hf⟩ := h2 (firstProductName a, g) hg
          refine ⟨hD, ?_⟩
          simp only
          rw [List.filter_append]
          have : [a].filter (fun b => firstProductName b == firstProductName a) = [a] := by
            simp
          rw [this, ← hf]
        · refine ⟨hD, ?_⟩
          simp only
          rw [List.filter_append]
          have hpre : pre.filter (fun b => firstProductName b == firstProductName a) = [] := by
            rw [List.filter_eq_nil_iff]
            intro b hb hfb
            rw [beq_iff_eq] at hfb
            exact hnk (hfb ▸ h3 b hb (hfb ▸ hD))
          have hone : [a].filter (fun b => firstProductName b == firstProductName a) = [a] := by
            simp
          rw [hpre, hone, List.nil_append]
      have k3 : ∀ b ∈ pre ++ [a], firstProductName b ∈ D →
          firstProductName b ∈ (addToGroups gs (firstProductName a) a).map Prod.fst := by
        intro b hb hbD
        have hsub : ∀ m, m ∈ gs.map Prod.fst →
            m ∈ (addToGroups gs (firstProductName a) a).map Prod.fst := by
          intro m hm
          rw [addToGroups_fst]
          by_cases hmem : firstProductName a ∈ gs.map Prod.fst
          · rw [if_pos hmem]; exact hm
          · rw [if_neg hmem]; exact List.mem_append_left _ hm
        rcases List.mem_append.mp hb with hpre | hone
        · exact hsub _ (h3 b hpre hbD)
        · rw [List.mem_singleton] at hone
          subst hone
          rw [addToGroups_fst]
          by_cases hmem : firstProductName b ∈ gs.map Prod.fst
          · rw [if_pos hmem]; exact hmem
          · rw [if_neg hmem]; exact List.mem_append_right _ (List.mem_singleton.mpr rfl)
      have := ih (pre ++ [a]) (addToGroups gs (firstProductName a) a) k1 k2 k3
      simpa [List.append_assoc] using this
    · rw [if_neg (by simpa using hD)]
      have k2 : ∀ q ∈ gs, q.1 ∈ D ∧
          q.2 = (pre ++ [a]).filter (fun b => firstProductName b == q.1) := by
        intro q hq
        obtain ⟨hD', hf⟩ := h2 q hq
        refine ⟨hD', ?_⟩
        rw [List.filter_append, hf]
        have : [a].filter (fun b => firstProductName b == q.1) = [] := by
          simp only [List.filter, List.filter_nil]
          have : (firstProductName a == q.1) = false := by
            rw [beq_eq_false_iff_ne]
            intro hx
            exact hD (hx ▸ hD')
          rw [this]
        rw [this, List.append_nil]
      have k3 : ∀ b ∈ pre ++ [a], firstProductName b ∈ D →
          firstProductName b ∈ gs.map Prod.fst := by
        intro b hb hbD
        rcases List.mem_append.mp hb with hpre | hone
        · exact h3 b hpre hbD
        · rw [List.mem_singleton] at hone
          subst hone
          exact absurd hbD hD
      have := ih (pre ++ [a]) gs h1 k2 k3
      simpa [List.append_assoc] using this

/-- The grouping facts for `toPrune` itself. -/
lemma toPrune_spec (asns : List Asn) :
    ((toPrune asns).map Prod.fst).Nodup ∧
    (∀ q ∈ toPrune asns, q.1 ∈ dupNames asns ∧
      q.2 = asns.filter (fun a => firstProductName a == q.1)) ∧
    (∀ a ∈ asns, firstProductName a ∈ dupNames asns →
      firstProductName a ∈ (toPrune asns).map Prod.fst) := by
  have := toPrune_fold_inv (dupNames asns) asns [] []
    (by simp) (by simp) (by simp)
  simpa [toPrune] using this

end Jwst

namespace Jwst

/-- Nested erase folds flatten: erasing each group's tail in turn is erasing
the concatenation of the tails. -/
lemma foldl_foldl_erase {α : Type} [DecidableEq α] (gs : List (String × List Asn))
    (f : String × List Asn → List α) (init : List α) :
    gs.foldl (fun l g => (f g).foldl List.erase l) init =
      init.diff (gs.flatMap f) := by
  rw [List.diff_eq_foldl]
  induction gs generalizing init with
  | nil => simp
  | cons g rest ih =>
    simp only [List.foldl_cons, List.flatMap_cons]
    rw [ih, List.foldl_append]

/-- `prune_duplicate_products` with duplicates present is a list difference
against the concatenated sorted group tails. -/
lemma prune_eq_diff (asns : List Asn) (h : ¬ dupNames asns = []) :
    prune_duplicate_products asns =
      asns.diff ((toPrune asns).flatMap (fun g => (sort_by_candidate g.2).drop 1)) := by
  unfold prune_duplicate_products
  rw [if_neg h]
  exact foldl_foldl_erase (toPrune asns) (fun g => (sort_by_candidate g.2).drop 1) asns

/-- A name is duplicated exactly when it occurs more than once among the
first product names. -/
lemma mem_dupNames_iff (asns : List Asn) (n : String) :
    n ∈ dupNames asns ↔ 1 < (productNames asns).count n := by
  unfold dupNames
  rw [List.mem_filter]
  constructor
  · rintro ⟨-, hc⟩
    exact of_decide_eq_true hc
  · intro hc
    refine ⟨?_, decide_eq_true hc⟩
    have : 0 < (productNames asns).count n := by omega
    exact List.count_pos_iff.mp this

/-- `sort_by_candidate` permutes its input. -/
lemma sort_by_candidate_perm (asns : List Asn) :
    (sort_by_candidate asns).Perm asns :=
  List.mergeSort_perm asns _

/-- The head of `sort_by_candidate` has the least candidate id. -/
lemma sort_by_candidate_head_le (asns : List Asn) (h : Asn) (t : List Asn)
    (hs : sort_by_candidate asns = h :: t) :
    ∀ b ∈ asns, h.asn_id ≤ b.asn_id := by
  have hsorted : List.Pairwise
      (fun x y => (decide (x.asn_id ≤ y.asn_id)) = true) (sort_by_candidate asns) :=
    List.sorted_mergeSort
      (fun a b c hab hbc => by
        rw [decide_eq_true_eq] at *
        exact le_trans hab hbc)
      (fun a b => by
        rcases le_total a.asn_id b.asn_id with hle | hle <;> simp [hle])
      asns
  intro b hb
  have hb' : b ∈ h :: t := by
    rw [← hs]
    exact ((sort_by_candidate_perm asns).mem_iff).mpr hb
  rcases List.mem_cons.mp hb' with rfl | hbt
  · exact le_refl _
  · rw [hs] at hsorted
    have := (List.pairwise_cons.mp hsorted).1 b hbt
    rwa [decide_eq_true_eq] at this

/-- Any group entry of `toPrune` for a name is the name-filter of the
input. -/
lemma toPrune_entry_eq (asns : List Asn) (n : String) (g : List Asn)
    (hg : (n, g) ∈ toPrune asns) :
    g = asns.filter (fun a => firstProductName a == n) ∧ n ∈ dupNames asns := by
  obtain ⟨-, hspec, -⟩ := toPrune_spec asns
  have := hspec (n, g) hg
  exact ⟨this.2, this.1⟩

/-- Membership in the removed tails, for an association of the input. -/
lemma mem_removed_iff (asns : List Asn) (a : Asn) :
    (a ∈ (toPrune asns).flatMap (fun g => (sort_by_candidate g.2).drop 1)) ↔
      (firstProductName a ∈ dupNames asns ∧
        a ∈ (sort_by_candidate
          (asns.filter (fun b => firstProductName b == firstProductName a))).drop 1 ∧
        (firstProductName a, asns.filter (fun b => firstProductName b == firstProductName a))
          ∈ toPrune asns) := by
  rw [List.mem_flatMap]
  constructor
  · rintro ⟨q, hq, ha⟩
    obtain ⟨k, g⟩ := q
    obtain ⟨hgf, hkD⟩ := toPrune_entry_eq asns k g hq
    have hag : a ∈ g := by
      have h1 : a ∈ sort_by_candidate g := List.mem_of_mem_drop ha
      exact ((sort_by_candidate_perm g).mem_iff).mp h1
    have hak : firstProductName a = k := by
      rw [hgf] at hag
      have := (List.mem_filter.mp hag).2
      rwa [beq_iff_eq] at this
    subst hak
    exact ⟨hkD, by rw [hgf] at ha; exact ha, by rw [← hgf]; exact hq⟩
  · rintro ⟨hD, ha, hmem⟩
    exact ⟨_, hmem, ha⟩

end Jwst

namespace Jwst

/-- A duplicate-free list whose members all equal `h`, containing `h`, is
`[h]`. -/
lemma nodup_all_eq_singleton {α : Type} (m : List α) (h : α)
    (hnd : m.Nodup) (hmem : h ∈ m) (hall : ∀ b ∈ m, b = h) : m = [h] := by
  cases m with
  | nil => cases hmem
  | cons x rest =>
    have hx : x = h := hall x (List.mem_cons_self _ _)
    subst hx
    have hrest : rest = [] := by
      rw [List.eq_nil_iff_forall_not_mem]
      intro c hc
      have hcx : c = x := hall c (List.mem_cons_of_mem _ hc)
      subst hcx
      exact (List.nodup_cons.mp hnd).1 hc
    rw [hrest]

/-- Pruning a list without duplicated product names is the identity. -/
lemma prune_of_no_dups (l : List Asn) (h : dupNames l = []) :
    prune_duplicate_products l = l := by
  unfold prune_duplicate_products
  rw [if_pos h]

/-- The pruned list is a sublist of the input. -/
lemma prune_sublist (asns : List Asn) :
    (prune_duplicate_products asns).Sublist asns := by
  by_cases hdup : dupNames asns = []
  · rw [prune_of_no_dups asns hdup]
  · rw [prune_eq_diff asns hdup]
    exact List.diff_sublist _ _

/-- An association whose product name is not duplicated is kept
unconditionally. -/
lemma prune_keeps_unique (asns : List Asn) (hnd : asns.Nodup)
    (a : Asn) (ha : a ∈ asns)
    (hcount : ¬ 1 < (productNames asns).count (firstProductName a)) :
    a ∈ prune_duplicate_products asns := by
  by_cases hdup : dupNames asns = []
  · rw [prune_of_no_dups asns hdup]
    exact ha
  · rw [prune_eq_diff asns hdup, hnd.mem_diff_iff]
    refine ⟨ha, ?_⟩
    intro hrem
    obtain ⟨hD, -, -⟩ := (mem_removed_iff asns a).mp hrem
    rw [mem_dupNames_iff] at hD
    exact hcount hD

/-- For each duplicated product name the pruned list retains exactly one
association: the head of the candidate-id sort of the name's group, which
has the least candidate id of the group. -/
lemma prune_survivors (asns : List Asn) (hnd : asns.Nodup)
    (n : String) (hcount : 1 < (productNames asns).count n) :
    ∃ h, (prune_duplicate_products asns).filter
        (fun b => firstProductName b == n) = [h] ∧
      h ∈ asns ∧ firstProductName h = n ∧
      ∀ b ∈ asns, firstProductName b = n → h.asn_id ≤ b.asn_id := by
  have hnD : n ∈ dupNames asns := (mem_dupNames_iff asns n).mpr hcount
  have hdup : ¬ dupNames asns = [] := by
    intro h0
    rw [h0] at hnD
    cases hnD
  have hGne : asns.filter (fun b => firstProductName b == n) ≠ [] := by
    have hpos : 0 < (productNames asns).count n := by omega
    have hmem := List.count_pos_iff.mp hpos
    unfold productNames at hmem
    rw [List.mem_map] at hmem
    obtain ⟨a, ha, hfa⟩ := hmem
    intro h0
    have : a ∈ asns.filter (fun b => firstProductName b == n) :=
      List.mem_filter.mpr ⟨ha, by rw [hfa]; exact beq_self_eq_true n⟩
    rw [h0] at this
    cases this
  obtain ⟨h, t, hS⟩ : ∃ h t,
      sort_by_candidate (asns.filter (fun b => firstProductName b == n)) = h :: t := by
    cases hS : sort_by_candidate (asns.filter (fun b => firstProductName b == n)) with
    | nil =>
      exfalso
      have hperm := sort_by_candidate_perm (asns.filter (fun b => firstProductName b == n))
      rw [hS] at hperm
      exact hGne (List.perm_nil.mp hperm.symm)
    | cons h t => exact ⟨h, t, rfl⟩
  have hhG : h ∈ asns.filter (fun b => firstProductName b == n) := by
    have hh : h ∈ sort_by_candidate (asns.filter (fun b => firstProductName b == n)) := by
      rw [hS]
      exact List.mem_cons_self _ _
    exact ((sort_by_candidate_perm _).mem_iff).mp hh
  have hhasns : h ∈ asns := (List.mem_filter.mp hhG).1
  have hhname : firstProductName h = n := by
    have := (List.mem_filter.mp hhG).2
    rwa [beq_iff_eq] at this
  have hSnd : (sort_by_candidate (asns.filter (fun b => firstProductName b == n))).Nodup :=
    ((sort_by_candidate_perm _).nodup_iff).mpr (hnd.filter _)
  have hgroup : (n, asns.filter (fun b => firstProductName b == n)) ∈ toPrune asns := by
    obtain ⟨-, -, hpresent⟩ := toPrune_spec asns
    have hkey := hpresent h hhasns (by rw [hhname]; exact hnD)
    rw [hhname, List.mem_map] at hkey
    obtain ⟨q, hq, hq1⟩ := hkey
    obtain ⟨k, g⟩ := q
    obtain ⟨hgf, -⟩ := toPrune_entry_eq asns k g hq
    have hkn : k = n := hq1
    subst hkn
    rw [← hgf]
    exact hq
  have hkeep : ∀ b, b ∈ asns → firstProductName b = n →
      (b ∈ prune_duplicate_products asns ↔ b = h) := by
    intro b hb hbn
    rw [prune_eq_diff asns hdup, hnd.mem_diff_iff]
    constructor
    · rintro ⟨-, hnotrem⟩
      by_contra hbh
      apply hnotrem
      rw [mem_removed_iff, hbn]
      refine ⟨hnD, ?_, hgroup⟩
      rw [hS]
      have hbS : b ∈ h :: t := by
        rw [← hS]
        exact ((sort_by_candidate_perm _).mem_iff).mpr
          (List.mem_filter.mpr ⟨hb, by rw [hbn]; exact beq_self_eq_true n⟩)
      rcases List.mem_cons.mp hbS with rfl | hbt
      · exact absurd rfl hbh
      · exact hbt
    · rintro rfl
      refine ⟨hhasns, ?_⟩
      intro hrem
      rw [mem_removed_iff, hhname] at hrem
      obtain ⟨-, hdropmem, -⟩ := hrem
      rw [hS] at hdropmem
      have hht : b ∈ t := hdropmem
      rw [hS] at hSnd
      exact (List.nodup_cons.mp hSnd).1 hht
  refine ⟨h, ?_, hhasns, hhname, ?_⟩
  · apply nodup_all_eq_singleton
    · exact ((prune_sublist asns).nodup hnd).filter _
    · apply List.mem_filter.mpr
      exact ⟨(hkeep h hhasns hhname).mpr rfl, by rw [hhname]; exact beq_self_eq_true n⟩
    · intro b hbf
      obtain ⟨hbp, hbn⟩ := List.mem_filter.mp hbf
      rw [beq_iff_eq] at hbn
      have hbasns : b ∈ asns := (prune_sublist asns).subset hbp
      exact (hkeep b hbasns hbn).mp hbp
  · intro b hb hbn
    exact sort_by_candidate_head_le _ h t hS b
      (List.mem_filter.mpr ⟨hb, by rw [hbn]; exact beq_self_eq_true n⟩)

end Jwst

namespace Jwst

/-- Counting a first product name is measuring the name filter. -/
lemma count_productNames_eq (l : List Asn) (n : String) :
    (productNames l).count n =
      (l.filter (fun b => firstProductName b == n)).length := by
  unfold productNames
  rw [List.count_eq_countP, List.countP_map, ← List.countP_eq_length_filter]
  rfl

/-- The pruned list carries no duplicated product names. -/
lemma dupNames_prune_eq_nil (asns : List Asn) (hnd : asns.Nodup) :
    dupNames (prune_duplicate_products asns) = [] := by
  unfold dupNames
  rw [List.filter_eq_nil_iff]
  intro n hn
  rw [decide_eq_true_eq]
  intro hc
  rw [count_productNames_eq] at hc
  by_cases hcin : 1 < (productNames asns).count n
  · obtain ⟨h, hfilter, -, -, -⟩ := prune_survivors asns hnd n hcin
    rw [hfilter] at hc
    simp at hc
  · have hsub : ((prune_duplicate_products asns).map firstProductName).Sublist
        (asns.map firstProductName) :=
      (prune_sublist asns).map firstProductName
    have hle := hsub.count_le n
    have hcount : (productNames (prune_duplicate_products asns)).count n ≤
        (productNames asns).count n := hle
    rw [count_productNames_eq, count_productNames_eq] at hcount
    rw [count_productNames_eq] at hcin
    omega

/-- **C3.**  For every duplicate-free list of single-product associations:
an association whose product name occurs exactly once is kept
unconditionally; for each product name held by more than one association
exactly one is retained — the one with the least candidate id, which under
the id-prefix convention (`a` < `c` < `o`, i.e. combined > background >
observation) is the highest-priority candidate — and all the others are
discarded; the choice is a pure function of the input, hence the same on
every run. -/
theorem prune_retains_highest_priority (asns : List Asn) (hnd : asns.Nodup)
    (_hsp : ∀ a ∈ asns, a.products.length = 1) :
    (∀ a ∈ asns, (productNames asns).count (firstProductName a) = 1 →
      a ∈ prune_duplicate_products asns) ∧
    (∀ n, 1 < (productNames asns).count n →
      ∃ h, (prune_duplicate_products asns).filter
          (fun b => firstProductName b == n) = [h] ∧
        h ∈ asns ∧ firstProductName h = n ∧
        ∀ b ∈ asns, firstProductName b = n → h.asn_id ≤ b.asn_id) :=
  ⟨fun a ha hc => prune_keeps_unique asns hnd a ha (by omega),
   fun n hc => prune_survivors asns hnd n hc⟩

/-- Witness for C3: duplicate name `P` under `o001` and `c002` retains the
`c002` (background, higher-priority) association; unique name `Q` is kept. -/
theorem prune_retains_highest_priority_witness :
    (∀ a ∈ [(⟨"image2", "o001", "observation", [⟨"P", [⟨"x", "science"⟩]⟩]⟩ : Asn),
            ⟨"image2", "c002", "background", [⟨"P", [⟨"y", "science"⟩]⟩]⟩,
            ⟨"image2", "o003", "observation", [⟨"Q", [⟨"z", "science"⟩]⟩]⟩],
      (productNames [(⟨"image2", "o001", "observation", [⟨"P", [⟨"x", "science"⟩]⟩]⟩ : Asn),
            ⟨"image2", "c002", "background", [⟨"P", [⟨"y", "science"⟩]⟩]⟩,
            ⟨"image2", "o003", "observation", [⟨"Q", [⟨"z", "science"⟩]⟩]⟩]).count
          (firstProductName a) = 1 →
      a ∈ prune_duplicate_products
        [(⟨"image2", "o001", "observation", [⟨"P", [⟨"x", "science"⟩]⟩]⟩ : Asn),
         ⟨"image2", "c002", "background", [⟨"P", [⟨"y", "science"⟩]⟩]⟩,
         ⟨"image2", "o003", "observation", [⟨"Q", [⟨"z", "science"⟩]⟩]⟩]) ∧
    (∀ n, 1 < (productNames
        [(⟨"image2", "o001", "observation", [⟨"P", [⟨"x", "science"⟩]⟩]⟩ : Asn),
         ⟨"image2", "c002", "background", [⟨"P", [⟨"y", "science"⟩]⟩]⟩,
         ⟨"image2", "o003", "observation", [⟨"Q", [⟨"z", "science"⟩]⟩]⟩]).count n →
      ∃ h, (prune_duplicate_products
          [(⟨"image2", "o001", "observation", [⟨"P", [⟨"x", "science"⟩]⟩]⟩ : Asn),
           ⟨"image2", "c002", "background", [⟨"P", [⟨"y", "science"⟩]⟩]⟩,
           ⟨"image2", "o003", "observation", [⟨"Q", [⟨"z", "science"⟩]⟩]⟩]).filter
            (fun b => firstProductName b == n) = [h] ∧
        h ∈ [(⟨"image2", "o001", "observation", [⟨"P", [⟨"x", "science"⟩]⟩]⟩ : Asn),
             ⟨"image2", "c002", "background", [⟨"P", [⟨"y", "science"⟩]⟩]⟩,
             ⟨"image2", "o003", "observation", [⟨"Q", [⟨"z", "science"⟩]⟩]⟩] ∧
        firstProductName h = n ∧
        ∀ b ∈ [(⟨"image2", "o001", "observation", [⟨"P", [⟨"x", "science"⟩]⟩]⟩ : Asn),
               ⟨"image2", "c002", "background", [⟨"P", [⟨"y", "science"⟩]⟩]⟩,
               ⟨"image2", "o003", "observation", [⟨"Q", [⟨"z", "science"⟩]⟩]⟩],
          firstProductName b = n → h.asn_id ≤ b.asn_id) :=
  prune_retains_highest_priority
    [⟨"image2", "o001", "observation", [⟨"P", [⟨"x", "science"⟩]⟩]⟩,
     ⟨"image2", "c002", "background", [⟨"P", [⟨"y", "science"⟩]⟩]⟩,
     ⟨"image2", "o003", "observation", [⟨"Q", [⟨"z", "science"⟩]⟩]⟩]
    (by decide)
    (by
      intro a ha
      simp only [List.mem_cons, List.not_mem_nil, or_false] at ha
      rcases ha with rfl | rfl | rfl <;> rfl)

/-- **C4.**  Pruning is idempotent on duplicate-free single-product
association lists: the first prune leaves every product name with exactly
one holder, so the second prune finds no duplicates and is the identity. -/
theorem prune_idempotent (asns : List Asn) (hnd : asns.Nodup)
    (_hsp : ∀ a ∈ asns, a.products.length = 1) :
    prune_duplicate_products (prune_duplicate_products asns) =
      prune_duplicate_products asns :=
  prune_of_no_dups _ (dupNames_prune_eq_nil asns hnd)

/-- Witness for C4 at the C3 witness's input list. -/
theorem prune_idempotent_witness :
    prune_duplicate_products (prune_duplicate_products
      [(⟨"image2", "o001", "observation", [⟨"P", [⟨"x", "science"⟩]⟩]⟩ : Asn),
       ⟨"image2", "c002", "background", [⟨"P", [⟨"y", "science"⟩]⟩]⟩,
       ⟨"image2", "o003", "observation", [⟨"Q", [⟨"z", "science"⟩]⟩]⟩]) =
    prune_duplicate_products
      [(⟨"image2", "o001", "observation", [⟨"P", [⟨"x", "science"⟩]⟩]⟩ : Asn),
       ⟨"image2", "c002", "background", [⟨"P", [⟨"y", "science"⟩]⟩]⟩,
       ⟨"image2", "o003", "observation", [⟨"Q", [⟨"z", "science"⟩]⟩]⟩] :=
  prune_idempotent
    [⟨"image2", "o001", "observation", [⟨"P", [⟨"x", "science"⟩]⟩]⟩,
     ⟨"image2", "c002", "background", [⟨"P", [⟨"y", "science"⟩]⟩]⟩,
     ⟨"image2", "o003", "observation", [⟨"Q", [⟨"z", "science"⟩]⟩]⟩]
    (by decide)
    (by
      intro a ha
      simp only [List.mem_cons, List.not_mem_nil, or_false] at ha
      rcases ha with rfl | rfl | rfl <;> rfl)

end Jwst
